import Mathlib

/-!
Dynamic hashtable (`Hashtable.h`): embedding and verification.

A shallow embedding of the open-addressing hash table of `Hashtable.h`
(quadratic probing, lazy deletion, growth to the next prime at least twice the
capacity), followed by theorems about it.

Modelling conventions.

* `std::vector<Bucket<T>>` is a `List (Bucket α)`; `table.size()` is its length.
* The probe loops are given in two readings of their `int` arithmetic.
  - The definitions with the source's names (`probeFree`, `indexOfLoop`,
    `removeLoop`, `insert`, `remove`, `indexOf`, `rehash`) take
    `index + i * i` as an exact number: indices and attempts are `Nat`. A
    probe loop is run for `table.size()` attempts, which is a complete search
    of the exact sequence: the slot visited at attempt `i + table.size()` is
    the slot visited at attempt `i` (`probeIndex_add_length`). A result `none`
    of a loop says that no attempt of the exact sequence lets it stop.
  - The definitions with the suffix `Wrap` follow the compiled code where the
    exact value does not fit an `int` (from attempt 46341 on): the `int`
    result wraps modulo `2 ^ 32` and is converted to `size_t` modulo `2 ^ 64`.
    A loop is run for the `2 ^ 32` values of the counter, a complete search
    (`probeFreeWrap_none_forever`). A result `none` says that the call does
    not return normally: a loop never leaves, or `rehash` subscripts its
    vector with a negative `int` (`probeFreeRehash`).
  - The two readings agree below the overflow: on a table of up to 20000
    slots every result of an exact operation is the result of the compiled
    one (`compiled_of_exact`).
  In both, a modulo by `table.size() = 0` gives `none`, and `count` is an `Int`
  (it can go below zero, see `remove`).
* The loops of `isPrime` and `nextPrime` run under an iteration bound as well;
  `isPrime_eq` and `nextPrime_least` show that the bound is never reached, so
  both members return on every `int`.
* The `double` load-factor threshold is held as the exact value of the
  `double`, a fraction; the product `loadFactorThreshold * table.size()` is
  rounded to the nearest `double`, ties to even (`roundDouble`), before it is
  compared with `count`.
-/

namespace DynamicHashtable

/-- The value hash `std::hash<T>()(value)` of the element type, as a natural
number (a `size_t`). -/
class BuiltinHash (α : Type) where
  builtin_hash : α → Nat

export BuiltinHash (builtin_hash)

/-- The hash `std::hash<int>` for `Hashtable<int>`: the conversion of the `int` to
`size_t`, the identity on non-negative ints. -/
instance instBuiltinHashInt : BuiltinHash Int where
  builtin_hash v := (v % 18446744073709551616).toNat

/-- The `struct Bucket`: a slot of the table. -/
structure Bucket (α : Type) where
  value : α
  occupied : Bool
  deleted : Bool
deriving DecidableEq

/-- The constructor `Bucket()`: `occupied(false), deleted(false)`; the C++ leaves `value`
indeterminate, the model puts the default element there (it is never read
while `occupied` is false). -/
instance instInhabitedBucket {α : Type} [Inhabited α] : Inhabited (Bucket α) where
  default := { value := default, occupied := false, deleted := false }

/-- The `double loadFactorThreshold`, held as the exact value `num / den` of the
`double` (a finite `double` is a fraction with a numerator below `2 ^ 53` in
absolute value and a power of two as denominator; infinities and NaN are left
out). -/
structure LoadFactor where
  num : Int
  den : Nat
  den_pos : 0 < den
deriving DecidableEq

/-- The threshold `0.65` of the default constructor argument: the `double`
nearest to `13 / 20`, which is `5854679515581645 / 2 ^ 53`. -/
def LoadFactor.default065 : LoadFactor :=
  { num := 5854679515581645, den := 9007199254740992, den_pos := by decide }

/-- The number of binary digits of `n` after the leading one, `⌊log₂ n⌋`, for
`n ≥ 1`, found by halving at most `fuel` times. -/
def log2Floor : Nat → Nat → Nat
  | 0, _ => 0
  | fuel + 1, n => if n < 2 then 0 else log2Floor fuel (n / 2) + 1

/-- The integer nearest to `a / b`, a tie going to the even neighbour. -/
def roundHalfEven (a b : Nat) : Nat :=
  if 2 * (a % b) < b then a / b
  else if b < 2 * (a % b) then a / b + 1
  else if (a / b) % 2 = 0 then a / b
  else a / b + 1

/-- Whether `a / b` is at least `2 ^ e`. -/
def atLeastPow2 (a b : Nat) (e : Int) : Bool :=
  if 0 ≤ e then decide (b * 2 ^ e.toNat ≤ a) else decide (b ≤ a * 2 ^ (-e).toNat)

/-- The binary exponent of a positive `a / b`: the `e` with
`2 ^ e ≤ a / b < 2 ^ (e + 1)`. -/
def binaryExponent (a b : Nat) : Int :=
  if atLeastPow2 a b ((log2Floor a a : Int) - (log2Floor b b : Int))
  then (log2Floor a a : Int) - (log2Floor b b : Int)
  else (log2Floor a a : Int) - (log2Floor b b : Int) - 1

/-- The rounding of the non-negative real `a / b` to a `double` (IEEE 754
binary64, round to nearest, ties to even): the result as a fraction in lowest
terms, `none` for an overflow to infinity. The unit in the last place is
`2 ^ q` with `q = max (e - 52) (-1074)`, the bound `-1074` being that of the
subnormal numbers. -/
def roundDouble (a b : Nat) : Option (Nat × Nat) :=
  if a = 0 then some (0, 1)
  else if 0 ≤ max (binaryExponent a b - 52) (-1074) then
    if roundHalfEven a (b * 2 ^ (max (binaryExponent a b - 52) (-1074)).toNat)
        * 2 ^ (max (binaryExponent a b - 52) (-1074)).toNat < 2 ^ 1024 then
      some (roundHalfEven a (b * 2 ^ (max (binaryExponent a b - 52) (-1074)).toNat)
        * 2 ^ (max (binaryExponent a b - 52) (-1074)).toNat, 1)
    else none
  else
    some
      (roundHalfEven (a * 2 ^ (-(max (binaryExponent a b - 52) (-1074))).toNat) b
          / Nat.gcd (roundHalfEven (a * 2 ^ (-(max (binaryExponent a b - 52) (-1074))).toNat) b)
              (2 ^ (-(max (binaryExponent a b - 52) (-1074))).toNat),
        2 ^ (-(max (binaryExponent a b - 52) (-1074))).toNat
          / Nat.gcd (roundHalfEven (a * 2 ^ (-(max (binaryExponent a b - 52) (-1074))).toNat) b)
              (2 ^ (-(max (binaryExponent a b - 52) (-1074))).toNat))

/-- The value of `count >= loadFactor * size` in `double` arithmetic: `size` is
converted to `double`, the product is rounded to `double`, `count` (an `int`)
converts exactly. An overflowing product is `+∞` or `-∞` by the sign of the
threshold. -/
def geDoubleProduct (count : Int) (loadFactor : LoadFactor) (size : Nat) : Bool :=
  match roundDouble size 1 with
  | none => decide (loadFactor.num < 0)
  | some (sn, sd) =>
    match roundDouble (loadFactor.num.natAbs * sn) (loadFactor.den * sd) with
    | none => decide (loadFactor.num < 0)
    | some (pn, pd) =>
      if 0 ≤ loadFactor.num then decide ((pn : Int) ≤ count * (pd : Int))
      else decide (-(pn : Int) ≤ count * (pd : Int))

/-- The `class Hashtable`: the data members `table`, `count`, `loadFactorThreshold`. -/
structure Hashtable (α : Type) where
  table : List (Bucket α)
  count : Int
  loadFactorThreshold : LoadFactor
deriving DecidableEq

variable {α : Type}

/-- The constructor `Hashtable(int cap, double loadFactor)`: `table(cap)`, `count(0)`. -/
def Hashtable.new [Inhabited α] (cap : Nat) (loadFactor : LoadFactor) : Hashtable α :=
  { table := List.replicate cap default, count := 0, loadFactorThreshold := loadFactor }

/-- Member `getSize()`: `return count`. -/
def Hashtable.getSize (t : Hashtable α) : Int := t.count

/-- Member `getCapacity()`: `return table.size()`. -/
def Hashtable.getCapacity (t : Hashtable α) : Nat := t.table.length

/-- Member `getLoadFactorThreshold()`: `return loadFactorThreshold`. -/
def Hashtable.getLoadFactorThreshold (t : Hashtable α) : LoadFactor := t.loadFactorThreshold

/-- Member `empty()`: `return count == 0`. -/
def Hashtable.empty (t : Hashtable α) : Bool := t.count == 0

/-- The slot `table[k]` for a slot index `k`. -/
def slot [Inhabited α] (tbl : List (Bucket α)) (k : Nat) : Bucket α := tbl.getD k default

/-- Member `hash(value, attempt)`:
`(std::hash<T>()(value) + attempt * attempt) % table.size()`; `none` when
`table.size()` is zero. Every call in the source passes `attempt = 0`, so the
sum does not wrap around `size_t`. -/
def Hashtable.hash [BuiltinHash α] (t : Hashtable α) (value : α) (attempt : Nat) : Option Nat :=
  if t.table.length = 0 then none
  else some ((builtin_hash value + attempt * attempt) % t.table.length)

/-- The slot index `(index + i * i) % size` visited at attempt `i`. -/
def probeIndex (size index i : Nat) : Nat := (index + i * i) % size

/-- The loop `for (int i = 3; i * i <= num; i += 2) if (num % i == 0) return false;`
followed by `return true`, run for at most `fuel` iterations. -/
def isPrimeLoop (num : Int) : Nat → Int → Option Bool
  | 0, _ => none
  | fuel + 1, i =>
    if i * i ≤ num then
      if num % i = 0 then some false else isPrimeLoop num fuel (i + 2)
    else some true

/-- Member `isPrime(num)`. The loop runs fewer than `num` times, the bound given
to `isPrimeLoop`. -/
def isPrime (num : Int) : Option Bool :=
  if num < 2 then some false
  else if num = 2 ∨ num = 3 then some true
  else if num % 2 = 0 then some false
  else isPrimeLoop num num.toNat 3

/-- The loop `while (!isPrime(num)) num++;` followed by `return num`, run for at
most `fuel` iterations. -/
def nextPrimeLoop : Nat → Int → Option Int
  | 0, _ => none
  | fuel + 1, num =>
    match isPrime num with
    | none => none
    | some true => some num
    | some false => nextPrimeLoop fuel (num + 1)

/-- Member `nextPrime(num)`. There is a prime in `[num, 2 * num]` for `num ≥ 1`, and
`2` is reached from a `num ≤ 0` after `2 - num` increments. -/
def nextPrime (num : Int) : Option Int := nextPrimeLoop (num.natAbs + 3) num

/-- The loop `while (tbl[(index + i * i) % tbl.size()].occupied) i++;` with
`index + i * i` taken as an exact number: the attempt at which it stops,
searching `fuel` attempts from attempt `i`. The loop as compiled, where the
`int` product wraps, is `probeFreeWrap`. -/
def probeFree [Inhabited α] (tbl : List (Bucket α)) (index : Nat) : Nat → Nat → Option Nat
  | 0, _ => none
  | fuel + 1, i =>
    if (slot tbl (probeIndex tbl.length index i)).occupied then probeFree tbl index fuel (i + 1)
    else some i

/-- The statements `tbl[k].value = value; tbl[k].occupied = true;`. -/
def writeSlot [Inhabited α] (tbl : List (Bucket α)) (k : Nat) (value : α) : List (Bucket α) :=
  tbl.set k { slot tbl k with value := value, occupied := true }

/-- The probe loop for a free slot followed by the write of `value` there
(lines 75-80 of `rehash`, lines 111-116 of `insert`). -/
def place [Inhabited α] (tbl : List (Bucket α)) (index : Nat) (value : α) :
    Option (List (Bucket α)) :=
  (probeFree tbl index tbl.length 0).map fun i =>
    writeSlot tbl (probeIndex tbl.length index i) value

/-- The loop `for (auto& entry : table)` of `rehash`, over the remaining old
entries: `hash(entry.value, 0)` is evaluated on `t`, the table before the
move. -/
def rehashLoop [Inhabited α] [BuiltinHash α] (t : Hashtable α) :
    List (Bucket α) → List (Bucket α) → Option (List (Bucket α))
  | [], newTable => some newTable
  | entry :: rest, newTable =>
    if entry.occupied ∧ ¬ entry.deleted then
      (t.hash entry.value 0).bind fun index =>
        (place newTable index entry.value).bind fun newTable' =>
          rehashLoop t rest newTable'
    else rehashLoop t rest newTable

/-- Member `rehash()`. -/
def Hashtable.rehash [Inhabited α] [BuiltinHash α] (t : Hashtable α) : Option (Hashtable α) :=
  (nextPrime ((t.table.length * 2 : Nat) : Int)).bind fun newCapacity =>
    (rehashLoop t t.table (List.replicate newCapacity.toNat default)).map fun newTable =>
      { t with table := newTable }

/-- The test `count >= loadFactorThreshold * table.size()` of `insert`, in
`double` arithmetic. -/
def Hashtable.needsRehash (t : Hashtable α) : Bool :=
  geDoubleProduct t.count t.loadFactorThreshold t.table.length

/-- Member `insert(value)`. -/
def Hashtable.insert [Inhabited α] [BuiltinHash α] (t : Hashtable α) (value : α) :
    Option (Hashtable α) :=
  (if t.needsRehash then t.rehash else some t).bind fun t1 =>
    (t1.hash value 0).bind fun index =>
      (place t1.table index value).map fun tbl =>
        { t1 with table := tbl, count := t1.count + 1 }

/-- The loop of `remove`, with `index + i * i` taken as an exact number:
`some (some k)` when it stops at slot `k`, an occupied slot whose value equals
`value`; `some none` when it reaches a non-occupied slot first. The loop as
compiled is `removeLoopWrap`. -/
def removeLoop [Inhabited α] [DecidableEq α] (tbl : List (Bucket α)) (index : Nat) (value : α) :
    Nat → Nat → Option (Option Nat)
  | 0, _ => none
  | fuel + 1, i =>
    if (slot tbl (probeIndex tbl.length index i)).occupied then
      if (slot tbl (probeIndex tbl.length index i)).value = value then
        some (some (probeIndex tbl.length index i))
      else removeLoop tbl index value fuel (i + 1)
    else some none

/-- Member `remove(value)`. -/
def Hashtable.remove [Inhabited α] [DecidableEq α] [BuiltinHash α] (t : Hashtable α) (value : α) :
    Option (Hashtable α) :=
  (t.hash value 0).bind fun index =>
    (removeLoop t.table index value t.table.length 0).map fun r =>
      match r with
      | some k => { t with table := t.table.set k { slot t.table k with deleted := true },
                           count := t.count - 1 }
      | none => t

/-- The loop of `indexOf` with its `return -1`, with `index + i * i` taken as an
exact number. The loop as compiled is `indexOfLoopWrap`. -/
def indexOfLoop [Inhabited α] [DecidableEq α] (tbl : List (Bucket α)) (index : Nat) (value : α) :
    Nat → Nat → Option Int
  | 0, _ => none
  | fuel + 1, i =>
    if (slot tbl (probeIndex tbl.length index i)).occupied then
      if (slot tbl (probeIndex tbl.length index i)).value = value ∧
          ¬ (slot tbl (probeIndex tbl.length index i)).deleted then
        some (probeIndex tbl.length index i : Nat)
      else indexOfLoop tbl index value fuel (i + 1)
    else some (-1)

/-- Member `indexOf(value)`. -/
def Hashtable.indexOf [Inhabited α] [DecidableEq α] [BuiltinHash α] (t : Hashtable α) (value : α) :
    Option Int :=
  (t.hash value 0).bind fun index => indexOfLoop t.table index value t.table.length 0

/-- Member `contains(value)`: `indexOf(value) != -1`. -/
def Hashtable.contains [Inhabited α] [DecidableEq α] [BuiltinHash α] (t : Hashtable α)
    (value : α) : Option Bool :=
  (t.indexOf value).map fun k => decide (k ≠ -1)

/-- Member `clear()`: `table.clear(); table.resize(17); count = 0;`. -/
def Hashtable.clear [Inhabited α] (t : Hashtable α) : Hashtable α :=
  { t with table := List.replicate 17 default, count := 0 }

/-- The table states reached from a freshly constructed table by `insert`,
`remove` and `clear` calls that return. -/
inductive Reachable [Inhabited α] [DecidableEq α] [BuiltinHash α] : Hashtable α → Prop
  | new (cap : Nat) (loadFactor : LoadFactor) : Reachable (Hashtable.new cap loadFactor)
  | insert {t t1 : Hashtable α} (value : α) :
      Reachable t → t.insert value = some t1 → Reachable t1
  | remove {t t1 : Hashtable α} (value : α) :
      Reachable t → t.remove value = some t1 → Reachable t1
  | clear {t : Hashtable α} : Reachable t → Reachable t.clear

/-- The number of slots that are occupied and not deleted. -/
def liveSlots (tbl : List (Bucket α)) : Nat :=
  (tbl.filter fun b => b.occupied && !b.deleted).length

/-- The number of slots that are occupied, tombstones included. -/
def occupiedSlots (tbl : List (Bucket α)) : Nat :=
  tbl.countP fun b => b.occupied

/-- The values stored in the occupied slots, with multiplicity. -/
def occupiedValues (tbl : List (Bucket α)) : Multiset α :=
  ((tbl.filter fun b => b.occupied).map fun b => b.value : List α)

/-- The values stored in the slots that are occupied and not deleted, with
multiplicity. -/
def liveValues (tbl : List (Bucket α)) : Multiset α :=
  ((tbl.filter fun b => b.occupied && !b.deleted).map fun b => b.value : List α)

/-- The table `Hashtable<int> t(17, 0.65)` of the default construction. -/
def defaultTable : Hashtable Int := Hashtable.new 17 LoadFactor.default065

/-- A call of one of the mutating operations. -/
inductive Op (α : Type) where
  | insert (value : α)
  | remove (value : α)
  | clear
deriving DecidableEq

/-- A run of calls, left to right; `none` when one of them gives `none`. -/
def runOps [Inhabited α] [DecidableEq α] [BuiltinHash α] (t : Hashtable α) :
    List (Op α) → Option (Hashtable α)
  | [] => some t
  | Op.insert v :: ops => (t.insert v).bind fun t1 => runOps t1 ops
  | Op.remove v :: ops => (t.remove v).bind fun t1 => runOps t1 ops
  | Op.clear :: ops => runOps t.clear ops

/-- A run of `insert` calls, left to right. -/
def insertAll [Inhabited α] [BuiltinHash α] (t : Hashtable α) : List α → Option (Hashtable α)
  | [] => some t
  | v :: vs => (t.insert v).bind fun t1 => insertAll t1 vs

/-- The default table after `insert(5); remove(5)`: slot 5 is a tombstone. -/
def tombstoneTable : Hashtable Int :=
  { table := (List.replicate 17 default).set 5 { value := 5, occupied := true, deleted := true },
    count := 0,
    loadFactorThreshold := LoadFactor.default065 }

/-- A three-slot table: `3` live in slot 0, `4` deleted in slot 1, `7` live in
slot 2. -/
def probeTable : Hashtable Int :=
  { table := [{ value := 3, occupied := true, deleted := false },
              { value := 4, occupied := true, deleted := true },
              { value := 7, occupied := true, deleted := false }],
    count := 2,
    loadFactorThreshold := LoadFactor.default065 }

/-- The table `tombstoneTable` after a further `insert(5)`: the tombstone stays in
slot 5 and the new `5` is in slot 6. -/
def tombstoneReinserted : Hashtable Int :=
  { table := writeSlot tombstoneTable.table 6 5,
    count := 1,
    loadFactorThreshold := LoadFactor.default065 }

/-- The value of an `int` expression as compiled: the exact value wrapped into
`[-2 ^ 31, 2 ^ 31)`. -/
def wrapInt (x : Int) : Int := (x + 2147483648) % 4294967296 - 2147483648

/-- The conversion of an `int` to `size_t`. -/
def toSizeT (x : Int) : Nat := (x % 18446744073709551616).toNat

/-- The number of values of an `int`, after which the counter `i` repeats. -/
def intCycle : Nat := 4294967296

/-- The subscript `(index + i * i) % table.size()` as compiled, for the `int`
variables `index` and `i`. -/
def machineIndex (size : Nat) (index i : Int) : Nat :=
  toSizeT (wrapInt (index + wrapInt (i * i))) % size

/-- Member `hash(value, attempt)` as compiled: the sum is taken in `size_t`, the
result is returned as an `int`. -/
def Hashtable.hashWrap [BuiltinHash α] (t : Hashtable α) (value : α) (attempt : Int) :
    Option Int :=
  if t.table.length = 0 then none
  else some (wrapInt (((builtin_hash value + toSizeT (wrapInt (attempt * attempt)))
    % 18446744073709551616 % t.table.length : Nat) : Int))

/-- The loop `while (tbl[(index + i * i) % tbl.size()].occupied) i++;` as
compiled: the value of `i` at which it stops. -/
def probeFreeWrap [Inhabited α] (tbl : List (Bucket α)) (index : Int) : Nat → Int → Option Int
  | 0, _ => none
  | fuel + 1, i =>
    if (slot tbl (machineIndex tbl.length index i)).occupied then
      probeFreeWrap tbl index fuel (wrapInt (i + 1))
    else some i

/-- The probe loop for a free slot and the write of `value` there, as compiled. -/
def placeWrap [Inhabited α] (tbl : List (Bucket α)) (index : Int) (value : α) :
    Option (List (Bucket α)) :=
  (probeFreeWrap tbl index intCycle 0).map fun i =>
    writeSlot tbl (machineIndex tbl.length index i) value

/-- The subscript `(index + i * i) % newCapacity` of `rehash` as compiled: here
the divisor is an `int`, so the remainder is that of `int` division and has the
sign of the wrapped sum. -/
def rehashIndex (newCapacity index i : Int) : Int :=
  Int.tmod (wrapInt (index + wrapInt (i * i))) newCapacity

/-- The loop `while (newTable[(index + i * i) % newCapacity].occupied) i++;` of
`rehash` as compiled: the value of `i` at which it stops; `none` also when the
subscript is negative, an access outside the vector. -/
def probeFreeRehash [Inhabited α] (newTable : List (Bucket α)) (newCapacity index : Int) :
    Nat → Int → Option Int
  | 0, _ => none
  | fuel + 1, i =>
    if rehashIndex newCapacity index i < 0 then none
    else if (slot newTable (rehashIndex newCapacity index i).toNat).occupied then
      probeFreeRehash newTable newCapacity index fuel (wrapInt (i + 1))
    else some i

/-- The probe loop of `rehash` and the write of `value`, as compiled. -/
def placeRehash [Inhabited α] (newTable : List (Bucket α)) (newCapacity index : Int)
    (value : α) : Option (List (Bucket α)) :=
  (probeFreeRehash newTable newCapacity index intCycle 0).map fun i =>
    writeSlot newTable (rehashIndex newCapacity index i).toNat value

/-- The loop `for (auto& entry : table)` of `rehash`, as compiled. -/
def rehashLoopWrap [Inhabited α] [BuiltinHash α] (t : Hashtable α) (newCapacity : Int) :
    List (Bucket α) → List (Bucket α) → Option (List (Bucket α))
  | [], newTable => some newTable
  | entry :: rest, newTable =>
    if entry.occupied ∧ ¬ entry.deleted then
      (t.hashWrap entry.value 0).bind fun index =>
        (placeRehash newTable newCapacity index entry.value).bind fun newTable' =>
          rehashLoopWrap t newCapacity rest newTable'
    else rehashLoopWrap t newCapacity rest newTable

/-- Member `rehash()`, as compiled: `table.size() * 2` is taken in `size_t` and
converted to the `int` argument of `nextPrime`. -/
def Hashtable.rehashWrap [Inhabited α] [BuiltinHash α] (t : Hashtable α) :
    Option (Hashtable α) :=
  (nextPrime (wrapInt (((t.table.length * 2) % 18446744073709551616 : Nat) : Int))).bind
    fun newCapacity =>
    (rehashLoopWrap t newCapacity t.table (List.replicate newCapacity.toNat default)).map
      fun newTable => { t with table := newTable }

/-- Member `insert(value)`, as compiled. -/
def Hashtable.insertWrap [Inhabited α] [BuiltinHash α] (t : Hashtable α) (value : α) :
    Option (Hashtable α) :=
  (if t.needsRehash then t.rehashWrap else some t).bind fun t1 =>
    (t1.hashWrap value 0).bind fun index =>
      (placeWrap t1.table index value).map fun tbl =>
        { t1 with table := tbl, count := t1.count + 1 }

/-- The loop of `remove`, as compiled. -/
def removeLoopWrap [Inhabited α] [DecidableEq α] (tbl : List (Bucket α)) (index : Int)
    (value : α) : Nat → Int → Option (Option Nat)
  | 0, _ => none
  | fuel + 1, i =>
    if (slot tbl (machineIndex tbl.length index i)).occupied then
      if (slot tbl (machineIndex tbl.length index i)).value = value then
        some (some (machineIndex tbl.length index i))
      else removeLoopWrap tbl index value fuel (wrapInt (i + 1))
    else some none

/-- Member `remove(value)`, as compiled. -/
def Hashtable.removeWrap [Inhabited α] [DecidableEq α] [BuiltinHash α] (t : Hashtable α)
    (value : α) : Option (Hashtable α) :=
  (t.hashWrap value 0).bind fun index =>
    (removeLoopWrap t.table index value intCycle 0).map fun r =>
      match r with
      | some k => { t with table := t.table.set k { slot t.table k with deleted := true },
                           count := t.count - 1 }
      | none => t

/-- The loop of `indexOf` with its `return -1`, as compiled; the subscript is
returned as an `int`. -/
def indexOfLoopWrap [Inhabited α] [DecidableEq α] (tbl : List (Bucket α)) (index : Int)
    (value : α) : Nat → Int → Option Int
  | 0, _ => none
  | fuel + 1, i =>
    if (slot tbl (machineIndex tbl.length index i)).occupied then
      if (slot tbl (machineIndex tbl.length index i)).value = value ∧
          ¬ (slot tbl (machineIndex tbl.length index i)).deleted then
        some (wrapInt (machineIndex tbl.length index i : Nat))
      else indexOfLoopWrap tbl index value fuel (wrapInt (i + 1))
    else some (-1)

/-- Member `indexOf(value)`, as compiled. -/
def Hashtable.indexOfWrap [Inhabited α] [DecidableEq α] [BuiltinHash α] (t : Hashtable α)
    (value : α) : Option Int :=
  (t.hashWrap value 0).bind fun index => indexOfLoopWrap t.table index value intCycle 0

/-- Member `contains(value)`, as compiled. -/
def Hashtable.containsWrap [Inhabited α] [DecidableEq α] [BuiltinHash α] (t : Hashtable α)
    (value : α) : Option Bool :=
  (t.indexOfWrap value).map fun k => decide (k ≠ -1)

/-- The default table after inserting `0, 17, 34, ..., 136`: the nine values
share the base index 0 and fill the slots `i * i mod 17`. -/
def collidedTable : Hashtable Int :=
  { table := [{ value := 0, occupied := true, deleted := false },
              { value := 17, occupied := true, deleted := false },
              { value := 102, occupied := true, deleted := false },
              default,
              { value := 34, occupied := true, deleted := false },
              default, default, default,
              { value := 85, occupied := true, deleted := false },
              { value := 51, occupied := true, deleted := false },
              default, default, default,
              { value := 136, occupied := true, deleted := false },
              default,
              { value := 119, occupied := true, deleted := false },
              { value := 68, occupied := true, deleted := false }],
    count := 9,
    loadFactorThreshold := LoadFactor.default065 }

/-- The table `collidedTable` with `153` written into slot 3. -/
def overflowedTable : Hashtable Int :=
  { table := writeSlot collidedTable.table 3 153,
    count := 10,
    loadFactorThreshold := LoadFactor.default065 }

/-- The default table after `insert(k); remove(k)` for `k = 0, ..., 16`: every
slot is a tombstone and `count` is 0. -/
def graveyardTable : Hashtable Int :=
  { table := (List.range 17).map fun k =>
      { value := (k : Int), occupied := true, deleted := true },
    count := 0,
    loadFactorThreshold := LoadFactor.default065 }

/-- The calls `insert(k); remove(k)` for `k = 0, ..., n - 1`. -/
def insertRemoveRun : Nat → List (Op Int)
  | 0 => []
  | n + 1 => insertRemoveRun n ++ [Op.insert (n : Int), Op.remove (n : Int)]

theorem probeIndex_add_length (size index i : Nat) :
    probeIndex size index (i + size) = probeIndex size index i := by
  unfold probeIndex
  have h : index + (i + size) * (i + size) = index + i * i + size * (2 * i + size) := by ring
  rw [h, Nat.add_mul_mod_self_left]

theorem probeIndex_mod (size index i : Nat) :
    probeIndex size index (i % size) = probeIndex size index i := by
  unfold probeIndex
  have h : i % size ≡ i [MOD size] := Nat.mod_modEq i size
  exact Nat.ModEq.add_left index (h.mul h)

theorem probeIndex_lt {size : Nat} (h : 0 < size) (index i : Nat) :
    probeIndex size index i < size := Nat.mod_lt _ h

/-! ## The probe loops -/

section FreeProbe
variable [Inhabited α]

theorem slot_replicate (n k : Nat) :
    slot (List.replicate n (default : Bucket α)) k = default := by
  unfold slot
  rw [List.getD_eq_getElem?_getD]
  by_cases h : k < n
  · simp [List.getElem?_replicate, h]
  · simp [List.getElem?_replicate, h]

theorem probeFree_some (tbl : List (Bucket α)) (index : Nat) (j : Nat) :
    ∀ (fuel i : Nat), probeFree tbl index fuel i = some j →
      i ≤ j ∧ j < i + fuel ∧ (slot tbl (probeIndex tbl.length index j)).occupied = false ∧
        (∀ m, i ≤ m → m < j → (slot tbl (probeIndex tbl.length index m)).occupied = true) := by
  intro fuel
  induction fuel with
  | zero => intro i h; simp [probeFree] at h
  | succ n ih =>
    intro i h
    unfold probeFree at h
    by_cases hocc : (slot tbl (probeIndex tbl.length index i)).occupied = true
    · rw [if_pos hocc] at h
      obtain ⟨hj, hlt, ho, hall⟩ := ih (i + 1) h
      refine ⟨by omega, by omega, ho, ?_⟩
      intro m h1 h2
      by_cases hmi : m = i
      · subst hmi; exact hocc
      · exact hall m (by omega) h2
    · rw [if_neg hocc] at h
      have hij : i = j := Option.some.inj h
      subst hij
      exact ⟨le_refl i, by omega, by simpa using hocc, fun m h1 h2 => by omega⟩

theorem probeFree_none (tbl : List (Bucket α)) (index : Nat) :
    ∀ (fuel i : Nat), probeFree tbl index fuel i = none →
      ∀ m, i ≤ m → m < i + fuel → (slot tbl (probeIndex tbl.length index m)).occupied = true := by
  intro fuel
  induction fuel with
  | zero => intro i _ m h1 h2; omega
  | succ n ih =>
    intro i h m h1 h2
    unfold probeFree at h
    by_cases hocc : (slot tbl (probeIndex tbl.length index i)).occupied = true
    · rw [if_pos hocc] at h
      by_cases hmi : m = i
      · subst hmi; exact hocc
      · exact ih (i + 1) h m (by omega) (by omega)
    · rw [if_neg hocc] at h; cases h

/-- Adequacy of the attempt bound: when the free-slot probe has not stopped
within `tbl.length` attempts, every attempt meets an occupied slot, so the C++
loop does not stop at all. -/
theorem probeFree_none_forever (tbl : List (Bucket α)) (index : Nat) (hlen : 0 < tbl.length)
    (h : probeFree tbl index tbl.length 0 = none) (m : Nat) :
    (slot tbl (probeIndex tbl.length index m)).occupied = true := by
  rw [← probeIndex_mod]
  exact probeFree_none tbl index tbl.length 0 h (m % tbl.length) (Nat.zero_le _)
    (by simpa using Nat.mod_lt m hlen)

end FreeProbe

section MatchProbe
variable [Inhabited α] [DecidableEq α]

theorem indexOfLoop_found (tbl : List (Bucket α)) (index : Nat) (v : α) (k : Int) :
    ∀ (fuel i : Nat), indexOfLoop tbl index v fuel i = some k → k ≠ -1 →
      ∃ j, i ≤ j ∧ k = (probeIndex tbl.length index j : Nat) ∧
        (slot tbl (probeIndex tbl.length index j)).occupied = true ∧
        (slot tbl (probeIndex tbl.length index j)).deleted = false ∧
        (slot tbl (probeIndex tbl.length index j)).value = v ∧
        (∀ m, i ≤ m → m ≤ j → (slot tbl (probeIndex tbl.length index m)).occupied = true) ∧
        (∀ m, i ≤ m → m < j →
          ¬ ((slot tbl (probeIndex tbl.length index m)).value = v ∧
             (slot tbl (probeIndex tbl.length index m)).deleted = false)) := by
  intro fuel
  induction fuel with
  | zero => intro i h; simp [indexOfLoop] at h
  | succ n ih =>
    intro i h hk
    unfold indexOfLoop at h
    by_cases hocc : (slot tbl (probeIndex tbl.length index i)).occupied = true
    · rw [if_pos hocc] at h
      by_cases hm : (slot tbl (probeIndex tbl.length index i)).value = v ∧
          ¬ (slot tbl (probeIndex tbl.length index i)).deleted = true
      · rw [if_pos hm] at h
        refine ⟨i, le_refl i, ?_, hocc, by simpa using hm.2, hm.1, ?_, ?_⟩
        · exact (Option.some.inj h).symm
        · intro m h1 h2
          have : m = i := le_antisymm h2 h1
          subst this; exact hocc
        · intro m h1 h2; omega
      · rw [if_neg hm] at h
        obtain ⟨j, hj, hkj, ho, hd, hv, hall, hno⟩ := ih (i + 1) h hk
        refine ⟨j, by omega, hkj, ho, hd, hv, ?_, ?_⟩
        · intro m h1 h2
          by_cases hmi : m = i
          · subst hmi; exact hocc
          · exact hall m (by omega) h2
        · intro m h1 h2
          by_cases hmi : m = i
          · subst hmi; simpa using hm
          · exact hno m (by omega) h2
    · rw [if_neg hocc] at h
      exact absurd (Option.some.inj h).symm hk

theorem indexOfLoop_absent (tbl : List (Bucket α)) (index : Nat) (v : α) :
    ∀ (fuel i : Nat), indexOfLoop tbl index v fuel i = some (-1) →
      ∃ j, i ≤ j ∧ (slot tbl (probeIndex tbl.length index j)).occupied = false ∧
        (∀ m, i ≤ m → m < j →
          (slot tbl (probeIndex tbl.length index m)).occupied = true ∧
          ¬ ((slot tbl (probeIndex tbl.length index m)).value = v ∧
             (slot tbl (probeIndex tbl.length index m)).deleted = false)) := by
  intro fuel
  induction fuel with
  | zero => intro i h; simp [indexOfLoop] at h
  | succ n ih =>
    intro i h
    unfold indexOfLoop at h
    by_cases hocc : (slot tbl (probeIndex tbl.length index i)).occupied = true
    · rw [if_pos hocc] at h
      by_cases hm : (slot tbl (probeIndex tbl.length index i)).value = v ∧
          ¬ (slot tbl (probeIndex tbl.length index i)).deleted = true
      · rw [if_pos hm] at h
        have := Option.some.inj h
        omega
      · rw [if_neg hm] at h
        obtain ⟨j, hj, ho, hno⟩ := ih (i + 1) h
        refine ⟨j, by omega, ho, ?_⟩
        intro m h1 h2
        by_cases hmi : m = i
        · subst hmi; exact ⟨hocc, by simpa using hm⟩
        · exact hno m (by omega) h2
    · exact ⟨i, le_refl i, by simpa using hocc, fun m h1 h2 => by omega⟩

/-- When the loop of `indexOf` has not left after `fuel` attempts, each of them
met an occupied slot that is not a live match. -/
theorem indexOfLoop_none (tbl : List (Bucket α)) (index : Nat) (v : α) :
    ∀ (fuel i : Nat), indexOfLoop tbl index v fuel i = none →
      ∀ m, i ≤ m → m < i + fuel →
        (slot tbl (probeIndex tbl.length index m)).occupied = true ∧
        ¬ ((slot tbl (probeIndex tbl.length index m)).value = v ∧
           (slot tbl (probeIndex tbl.length index m)).deleted = false) := by
  intro fuel
  induction fuel with
  | zero => intro i _ m h1 h2; omega
  | succ n ih =>
    intro i h m h1 h2
    unfold indexOfLoop at h
    by_cases hocc : (slot tbl (probeIndex tbl.length index i)).occupied = true
    · rw [if_pos hocc] at h
      by_cases hm : (slot tbl (probeIndex tbl.length index i)).value = v ∧
          ¬ (slot tbl (probeIndex tbl.length index i)).deleted = true
      · rw [if_pos hm] at h; cases h
      · rw [if_neg hm] at h
        by_cases hmi : m = i
        · subst hmi; exact ⟨hocc, by simpa using hm⟩
        · exact ih (i + 1) h m (by omega) (by omega)
    · rw [if_neg hocc] at h; cases h

theorem removeLoop_absent (tbl : List (Bucket α)) (index : Nat) (v : α) :
    ∀ (fuel i : Nat), removeLoop tbl index v fuel i = some none →
      ∃ j, i ≤ j ∧ (slot tbl (probeIndex tbl.length index j)).occupied = false ∧
        (∀ m, i ≤ m → m < j →
          (slot tbl (probeIndex tbl.length index m)).occupied = true ∧
          (slot tbl (probeIndex tbl.length index m)).value ≠ v) := by
  intro fuel
  induction fuel with
  | zero => intro i h; simp [removeLoop] at h
  | succ n ih =>
    intro i h
    unfold removeLoop at h
    by_cases hocc : (slot tbl (probeIndex tbl.length index i)).occupied = true
    · rw [if_pos hocc] at h
      by_cases hm : (slot tbl (probeIndex tbl.length index i)).value = v
      · rw [if_pos hm] at h; cases h
      · rw [if_neg hm] at h
        obtain ⟨j, hj, ho, hno⟩ := ih (i + 1) h
        refine ⟨j, by omega, ho, ?_⟩
        intro m h1 h2
        by_cases hmi : m = i
        · subst hmi; exact ⟨hocc, hm⟩
        · exact hno m (by omega) h2
    · exact ⟨i, le_refl i, by simpa using hocc, fun m h1 h2 => by omega⟩

theorem removeLoop_none (tbl : List (Bucket α)) (index : Nat) (v : α) :
    ∀ (fuel i : Nat), removeLoop tbl index v fuel i = none →
      ∀ m, i ≤ m → m < i + fuel →
        (slot tbl (probeIndex tbl.length index m)).occupied = true ∧
        (slot tbl (probeIndex tbl.length index m)).value ≠ v := by
  intro fuel
  induction fuel with
  | zero => intro i _ m h1 h2; omega
  | succ n ih =>
    intro i h m h1 h2
    unfold removeLoop at h
    by_cases hocc : (slot tbl (probeIndex tbl.length index i)).occupied = true
    · rw [if_pos hocc] at h
      by_cases hm : (slot tbl (probeIndex tbl.length index i)).value = v
      · rw [if_pos hm] at h; cases h
      · rw [if_neg hm] at h
        by_cases hmi : m = i
        · subst hmi; exact ⟨hocc, hm⟩
        · exact ih (i + 1) h m (by omega) (by omega)
    · rw [if_neg hocc] at h; cases h

/-- Adequacy of the attempt bound for `indexOf`. -/
theorem indexOfLoop_none_forever (tbl : List (Bucket α)) (index : Nat) (v : α)
    (hlen : 0 < tbl.length) (h : indexOfLoop tbl index v tbl.length 0 = none) (m : Nat) :
    (slot tbl (probeIndex tbl.length index m)).occupied = true ∧
      ¬ ((slot tbl (probeIndex tbl.length index m)).value = v ∧
         (slot tbl (probeIndex tbl.length index m)).deleted = false) := by
  rw [← probeIndex_mod]
  exact indexOfLoop_none tbl index v tbl.length 0 h (m % tbl.length) (Nat.zero_le _)
    (by simpa using Nat.mod_lt m hlen)

/-- Adequacy of the attempt bound for `remove`. -/
theorem removeLoop_none_forever (tbl : List (Bucket α)) (index : Nat) (v : α)
    (hlen : 0 < tbl.length) (h : removeLoop tbl index v tbl.length 0 = none) (m : Nat) :
    (slot tbl (probeIndex tbl.length index m)).occupied = true ∧
      (slot tbl (probeIndex tbl.length index m)).value ≠ v := by
  rw [← probeIndex_mod]
  exact removeLoop_none tbl index v tbl.length 0 h (m % tbl.length) (Nat.zero_le _)
    (by simpa using Nat.mod_lt m hlen)

end MatchProbe


/-! ## Unfolding the operations -/

theorem hash_eq_some [BuiltinHash α] (t : Hashtable α) (v : α) (a index : Nat)
    (h : t.hash v a = some index) :
    0 < t.table.length ∧ index = (builtin_hash v + a * a) % t.table.length := by
  unfold Hashtable.hash at h
  by_cases h0 : t.table.length = 0
  · rw [if_pos h0] at h; cases h
  · rw [if_neg h0] at h
    exact ⟨Nat.pos_of_ne_zero h0, (Option.some.inj h).symm⟩

theorem hash_of_pos [BuiltinHash α] (t : Hashtable α) (v : α) (a : Nat)
    (h : 0 < t.table.length) :
    t.hash v a = some ((builtin_hash v + a * a) % t.table.length) := by
  unfold Hashtable.hash
  rw [if_neg (Nat.pos_iff_ne_zero.mp h)]

section Unfold
variable [Inhabited α]

theorem place_eq_some (tbl tbl1 : List (Bucket α)) (index : Nat) (v : α)
    (h : place tbl index v = some tbl1) :
    ∃ i, probeFree tbl index tbl.length 0 = some i ∧
      tbl1 = writeSlot tbl (probeIndex tbl.length index i) v := by
  unfold place at h
  obtain ⟨i, hi, hw⟩ := Option.map_eq_some'.mp h
  exact ⟨i, hi, hw.symm⟩

theorem rehashLoop_cons_live [BuiltinHash α] (t : Hashtable α) (entry : Bucket α)
    (rest newTable out : List (Bucket α))
    (hlive : entry.occupied = true ∧ ¬ entry.deleted = true)
    (h : rehashLoop t (entry :: rest) newTable = some out) :
    ∃ index newTable1, t.hash entry.value 0 = some index ∧
      place newTable index entry.value = some newTable1 ∧
      rehashLoop t rest newTable1 = some out := by
  unfold rehashLoop at h
  rw [if_pos hlive] at h
  obtain ⟨index, hi, h1⟩ := Option.bind_eq_some.mp h
  obtain ⟨newTable1, hp, h2⟩ := Option.bind_eq_some.mp h1
  exact ⟨index, newTable1, hi, hp, h2⟩

theorem rehashLoop_cons_dead [BuiltinHash α] (t : Hashtable α) (entry : Bucket α)
    (rest newTable : List (Bucket α))
    (hdead : ¬ (entry.occupied = true ∧ ¬ entry.deleted = true)) :
    rehashLoop t (entry :: rest) newTable = rehashLoop t rest newTable := by
  rw [rehashLoop, if_neg hdead]

theorem rehash_eq_some [BuiltinHash α] (t t1 : Hashtable α) (h : t.rehash = some t1) :
    ∃ newCapacity newTable, nextPrime ((t.table.length * 2 : Nat) : Int) = some newCapacity ∧
      rehashLoop t t.table (List.replicate newCapacity.toNat default) = some newTable ∧
      t1 = { t with table := newTable } := by
  unfold Hashtable.rehash at h
  obtain ⟨newCapacity, hn, h1⟩ := Option.bind_eq_some.mp h
  obtain ⟨newTable, hl, h2⟩ := Option.map_eq_some'.mp h1
  exact ⟨newCapacity, newTable, hn, hl, h2.symm⟩

theorem insert_eq_some [BuiltinHash α] (t t1 : Hashtable α) (v : α) (h : t.insert v = some t1) :
    ∃ t2 index tbl, (if t.needsRehash = true then t.rehash else some t) = some t2 ∧
      t2.hash v 0 = some index ∧ place t2.table index v = some tbl ∧
      t1 = { t2 with table := tbl, count := t2.count + 1 } := by
  unfold Hashtable.insert at h
  obtain ⟨t2, hg, h1⟩ := Option.bind_eq_some.mp h
  obtain ⟨index, hh, h2⟩ := Option.bind_eq_some.mp h1
  obtain ⟨tbl, hp, h3⟩ := Option.map_eq_some'.mp h2
  exact ⟨t2, index, tbl, hg, hh, hp, h3.symm⟩

end Unfold

/-! ## Preservation of `deleted → occupied` -/

section SlotInvariant
variable [Inhabited α]

end SlotInvariant

/-! ## Runs of operations -/

section Runs
variable [Inhabited α] [DecidableEq α] [BuiltinHash α]

theorem reachable_runOps (ops : List (Op α)) :
    ∀ (t t1 : Hashtable α), Reachable t → runOps t ops = some t1 → Reachable t1 := by
  induction ops with
  | nil =>
    intro t t1 hr h
    have h1 : t = t1 := by simpa [runOps] using h
    rw [← h1]; exact hr
  | cons op rest ih =>
    intro t t1 hr h
    cases op with
    | insert v =>
      obtain ⟨t2, h2, h3⟩ := Option.bind_eq_some.mp (by simpa [runOps] using h)
      exact ih t2 t1 (Reachable.insert v hr h2) h3
    | remove v =>
      obtain ⟨t2, h2, h3⟩ := Option.bind_eq_some.mp (by simpa [runOps] using h)
      exact ih t2 t1 (Reachable.remove v hr h2) h3
    | clear =>
      exact ih t.clear t1 (Reachable.clear hr) (by simpa [runOps] using h)

end Runs

/-! ## The claims -/

/-- C7. `clear()` on any table state gives `getSize() = 0`, `getCapacity() = 17`,
seventeen slots that are all non-occupied and non-deleted, and the same
load-factor threshold; `contains(v)` is then false for every `v`. -/
theorem clear_resets [Inhabited α] [DecidableEq α] [BuiltinHash α] (t : Hashtable α) :
    t.clear.getSize = 0 ∧ t.clear.getCapacity = 17 ∧ t.clear.table.length = 17 ∧
      (∀ b ∈ t.clear.table, b.occupied = false ∧ b.deleted = false) ∧
      t.clear.getLoadFactorThreshold = t.getLoadFactorThreshold ∧
      ∀ v : α, t.clear.contains v = some false := by
  refine ⟨rfl, by simp [Hashtable.clear, Hashtable.getCapacity], by simp [Hashtable.clear], ?_,
    rfl, ?_⟩
  · intro b hb
    have hb1 : b = default := List.eq_of_mem_replicate hb
    rw [hb1]; exact ⟨rfl, rfl⟩
  · intro v
    have hlen : t.clear.table.length = 17 := by simp [Hashtable.clear]
    have hidx : t.clear.indexOf v = some (-1) := by
      unfold Hashtable.indexOf
      rw [hash_of_pos t.clear v 0 (by omega), Option.some_bind, hlen]
      have hs : ∀ k, (slot t.clear.table k).occupied = false := by
        intro k
        show (slot (List.replicate 17 (default : Bucket α)) k).occupied = false
        rw [slot_replicate]; rfl
      rw [indexOfLoop, if_neg (by rw [hs]; simp)]
    unfold Hashtable.contains
    rw [hidx]; rfl

/-- Lookup on the exact probe sequence (`index + i * i` below `INT_MAX` at every
attempt made). For a table of capacity at least 1: when `indexOf(v)` returns
`k != -1`, then `0 <= k < capacity`, slot `k` is occupied, not deleted and
stores `v`, and `k = (builtin_hash(v) mod capacity + i*i) mod capacity` for the
least attempt `i` whose slot is a live match, every slot at attempts `0..i`
being occupied; when it returns `-1`, some attempt reaches a non-occupied slot
and no earlier attempt's slot is a live match. `contains(v)` is true exactly
when `indexOf(v) != -1`. -/
theorem indexOf_sound [Inhabited α] [DecidableEq α] [BuiltinHash α] (t : Hashtable α) (v : α)
    (k : Int) (hcap : 1 ≤ t.getCapacity) (h : t.indexOf v = some k) :
    (k ≠ -1 → 0 ≤ k ∧ k < t.getCapacity ∧
      (slot t.table k.toNat).occupied = true ∧ (slot t.table k.toNat).deleted = false ∧
      (slot t.table k.toNat).value = v ∧
      ∃ i : Nat,
        k = (probeIndex t.getCapacity (builtin_hash v % t.getCapacity) i : Nat) ∧
        (∀ m, m ≤ i →
          (slot t.table (probeIndex t.getCapacity (builtin_hash v % t.getCapacity) m)).occupied
            = true) ∧
        (∀ m, m < i →
          ¬ ((slot t.table (probeIndex t.getCapacity (builtin_hash v % t.getCapacity) m)).value = v
            ∧ (slot t.table (probeIndex t.getCapacity (builtin_hash v % t.getCapacity) m)).deleted
              = false))) ∧
    (k = -1 → ∃ i : Nat,
        (slot t.table (probeIndex t.getCapacity (builtin_hash v % t.getCapacity) i)).occupied
          = false ∧
        (∀ m, m < i →
          (slot t.table (probeIndex t.getCapacity (builtin_hash v % t.getCapacity) m)).occupied
            = true ∧
          ¬ ((slot t.table (probeIndex t.getCapacity (builtin_hash v % t.getCapacity) m)).value = v
            ∧ (slot t.table (probeIndex t.getCapacity (builtin_hash v % t.getCapacity) m)).deleted
              = false))) ∧
    (t.contains v = some true ↔ k ≠ -1) := by
  have hpos : 0 < t.table.length := hcap
  have hloop : indexOfLoop t.table (builtin_hash v % t.table.length) v t.table.length 0
      = some k := by
    have h1 := h
    unfold Hashtable.indexOf at h1
    rw [hash_of_pos t v 0 hpos, Option.some_bind] at h1
    simpa using h1
  unfold Hashtable.getCapacity
  refine ⟨?_, ?_, ?_⟩
  · intro hk
    obtain ⟨j, _, hkj, ho, hd, hv, hall, hno⟩ :=
      indexOfLoop_found t.table _ v k _ _ hloop hk
    have hlt := probeIndex_lt hpos (builtin_hash v % t.table.length) j
    have hto : k.toNat = probeIndex t.table.length (builtin_hash v % t.table.length) j := by
      rw [hkj]; exact Int.toNat_ofNat _
    rw [hto]
    refine ⟨by rw [hkj]; exact Int.ofNat_nonneg _, by rw [hkj]; exact_mod_cast hlt, ho, hd, hv,
      j, hkj, fun m hm => hall m (Nat.zero_le m) hm, fun m hm => hno m (Nat.zero_le m) hm⟩
  · intro hk
    rw [hk] at hloop
    obtain ⟨j, _, ho, hno⟩ := indexOfLoop_absent t.table _ v _ _ hloop
    exact ⟨j, ho, fun m hm => hno m (Nat.zero_le m) hm⟩
  · unfold Hashtable.contains
    rw [h]
    simp

/-- An instance of `indexOf_sound`: in the three-slot table `probeTable` the value 7 starts at
slot 1, an occupied slot holding 4, and is found at attempt 1 in slot 2. -/
theorem indexOf_sound_witness :
    1 ≤ probeTable.getCapacity ∧ probeTable.indexOf 7 = some 2 ∧
      ((0 : Int) ≤ 2 ∧ (2 : Int) < probeTable.getCapacity ∧
        (slot probeTable.table (2 : Int).toNat).occupied = true ∧
        (slot probeTable.table (2 : Int).toNat).deleted = false ∧
        (slot probeTable.table (2 : Int).toNat).value = 7) ∧
      (probeTable.contains 7 = some true ↔ (2 : Int) ≠ -1) :=
  ⟨by decide, by decide,
    let h := (indexOf_sound probeTable 7 2 (by decide) (by decide)).1 (by decide)
    ⟨h.1, h.2.1, h.2.2.1, h.2.2.2.1, h.2.2.2.2.1⟩,
    (indexOf_sound probeTable 7 2 (by decide) (by decide)).2.2⟩

/-- C1, evaluated on the code. The thirteen distinct values `20, 1, ..., 12` are
inserted into the default table; the thirteenth insert rehashes to capacity 37
and `getSize()` is 13, but `contains(20)` is then false. And after the nine
inserts `0, 17, ..., 136` no attempt of the exact probe sequence lets the
insert of `153` stop. -/
theorem roundTrip_lost_after_rehash :
    ([20, 1, 2, 3, 4, 5, 6, 7, 8, 9, 10, 11, 12] : List Int).Nodup ∧
      (insertAll defaultTable [20, 1, 2, 3, 4, 5, 6, 7, 8, 9, 10, 11, 12]).map
        (fun t => (t.getSize, t.getCapacity)) = some (13, 37) ∧
      (insertAll defaultTable [20, 1, 2, 3, 4, 5, 6, 7, 8, 9, 10, 11, 12]).bind
        (fun t => t.contains 20) = some false ∧
      (insertAll defaultTable [0, 17, 34, 51, 68, 85, 102, 119, 136]).map
        (fun t => (t.getSize, t.getCapacity)) = some (9, 17) ∧
      insertAll defaultTable [0, 17, 34, 51, 68, 85, 102, 119, 136, 153] = none := by
  refine ⟨by decide, by decide, by decide, by decide, by decide⟩

/-- C2, evaluated on the code. After `insert(5); remove(5)` on the default table
`contains(5)` is false; a further `insert(5)` brings `getSize()` to 1 and the
following `remove(5)` brings it to 0, but `contains(5)` is then true: the
`remove` has marked the old tombstone again. -/
theorem remove_marks_tombstone_again :
    (runOps defaultTable [Op.insert 5, Op.remove 5]).bind (fun t => t.contains 5) = some false ∧
      (runOps defaultTable [Op.insert 5, Op.remove 5, Op.insert 5]).map
        (fun t => t.getSize) = some 1 ∧
      (runOps defaultTable [Op.insert 5, Op.remove 5, Op.insert 5, Op.remove 5]).map
        (fun t => t.getSize) = some 0 ∧
      (runOps defaultTable [Op.insert 5, Op.remove 5, Op.insert 5, Op.remove 5]).bind
        (fun t => t.contains 5) = some true := by
  refine ⟨by decide, by decide, by decide, by decide⟩

/-- C3, evaluated on the code. From the state after inserting `1, ..., 11` into
the default table (`getSize() = 11`), two `insert(20)` calls give
`getSize() = 13` and one `remove(20)` gives `getSize() = 12`, but
`contains(20)` is then false: the second insert rehashed and the first `20`
sits where no lookup of `20` goes. -/
theorem duplicate_lost_after_rehash :
    (insertAll defaultTable [1, 2, 3, 4, 5, 6, 7, 8, 9, 10, 11]).map
        (fun t => t.getSize) = some 11 ∧
      (insertAll defaultTable [1, 2, 3, 4, 5, 6, 7, 8, 9, 10, 11, 20, 20]).map
        (fun t => t.getSize) = some 13 ∧
      ((insertAll defaultTable [1, 2, 3, 4, 5, 6, 7, 8, 9, 10, 11, 20, 20]).bind
        (fun t => t.remove 20)).map (fun t => t.getSize) = some 12 ∧
      ((insertAll defaultTable [1, 2, 3, 4, 5, 6, 7, 8, 9, 10, 11, 20, 20]).bind
        (fun t => t.remove 20)).bind (fun t => t.contains 20) = some false := by
  refine ⟨by decide, by decide, by decide, by decide⟩

/-- C4 as stated fails: after inserting `1, ..., 11` into the default table the
capacity is still 17. -/
theorem no_growth_after_eleven :
    (insertAll defaultTable [1, 2, 3, 4, 5, 6, 7, 8, 9, 10, 11]).map
        (fun t => (t.getCapacity, t.getSize)) = some (17, 11) ∧
      ¬ (∀ t, insertAll defaultTable [1, 2, 3, 4, 5, 6, 7, 8, 9, 10, 11] = some t →
          17 < t.getCapacity ∧ Nat.Prime t.getCapacity ∧ 34 ≤ t.getCapacity ∧
          t.getSize = 11) := by
  have h : (insertAll defaultTable [1, 2, 3, 4, 5, 6, 7, 8, 9, 10, 11]).map
      (fun t => (t.getCapacity, t.getSize)) = some (17, 11) := by decide
  refine ⟨h, ?_⟩
  intro hall
  obtain ⟨t, ht, hc⟩ := Option.map_eq_some'.mp h
  have hcap : t.getCapacity = 17 := congrArg Prod.fst hc
  have := (hall t ht).1
  omega

/-- C4, amended. For the default table (capacity 17, threshold 0.65) the
capacity is 17 after inserting `1, ..., 11` and after inserting `1, ..., 12`;
the thirteenth insert grows it: after inserting `1, ..., 13` the capacity is
greater than 17, prime and at least `2 * 17`, and `getSize()` is 13. -/
theorem growth_at_thirteenth_insert :
    (insertAll defaultTable [1, 2, 3, 4, 5, 6, 7, 8, 9, 10, 11]).map
        (fun t => (t.getCapacity, t.getSize)) = some (17, 11) ∧
      (insertAll defaultTable [1, 2, 3, 4, 5, 6, 7, 8, 9, 10, 11, 12]).map
        (fun t => (t.getCapacity, t.getSize)) = some (17, 12) ∧
      ∃ t, insertAll defaultTable [1, 2, 3, 4, 5, 6, 7, 8, 9, 10, 11, 12, 13] = some t ∧
        17 < t.getCapacity ∧ Nat.Prime t.getCapacity ∧ 2 * 17 ≤ t.getCapacity ∧
        t.getSize = 13 := by
  refine ⟨by decide, by decide, ?_⟩
  have h : (insertAll defaultTable [1, 2, 3, 4, 5, 6, 7, 8, 9, 10, 11, 12, 13]).map
      (fun t => (t.getCapacity, t.getSize)) = some (37, 13) := by decide
  obtain ⟨t, ht, hc⟩ := Option.map_eq_some'.mp h
  have hcap : t.getCapacity = 37 := congrArg Prod.fst hc
  have hsize : t.getSize = 13 := congrArg Prod.snd hc
  refine ⟨t, ht, by omega, ?_, by omega, hsize⟩
  rw [hcap]; norm_num

/-- C5, evaluated on the code. After `insert(5); remove(5); remove(5)` on the
default table `getSize()` is `-1` while no slot is occupied and not deleted. -/
theorem count_below_live_slots :
    (runOps defaultTable [Op.insert 5, Op.remove 5, Op.remove 5]).map
        (fun t => (t.getSize, liveSlots t.table)) = some (-1, 0) := by
  decide

/-- C6, evaluated on the code. After `insert(5); remove(5)` on the default table
`contains(5)` is false and `getSize()` is 0; `remove(5)` then returns with
`getSize() = -1`. -/
theorem remove_absent_changes_count :
    tombstoneTable.contains 5 = some false ∧ tombstoneTable.getSize = 0 ∧
      (tombstoneTable.remove 5).map (fun t => t.getSize) = some (-1) ∧
      (tombstoneTable.remove 5).map (fun t => t.table) = some tombstoneTable.table := by
  refine ⟨by decide, by decide, by decide, by decide⟩

/-- C10, evaluated on the code. `20` is inserted into the default table (slot
`20 mod 17 = 3`) and `rehash()` is called: the new capacity is 37 and `20` is
in slot 3 of the new table, slot `20 = 20 mod 37` is empty, and `contains(20)`
is false. -/
theorem rehash_keeps_old_base :
    ((defaultTable.insert 20).bind fun t => t.rehash).map
        (fun t => (t.getCapacity, slot t.table 3, slot t.table 20))
        = some (37, { value := 20, occupied := true, deleted := false }, default) ∧
      probeIndex 37 (builtin_hash (20 : Int) % 37) 0 = 20 ∧
      probeIndex 37 (builtin_hash (20 : Int) % 17) 0 = 3 ∧
      (((defaultTable.insert 20).bind fun t => t.rehash).bind fun t => t.contains 20)
        = some false := by
  refine ⟨by decide, by decide, by decide, by decide⟩


/-! ## Prime search -/

/-- The loop of `isPrime` on an odd `n ≥ 5`, entered at an odd `k ≥ 3` below which
no odd number from 3 on divides `n`, with more iterations allowed than it can
take: it returns whether `n` is prime. -/
theorem isPrimeLoop_nat (n : Nat) (hodd : n % 2 = 1) (h5 : 5 ≤ n) :
    ∀ (fuel k : Nat), 1 ≤ fuel → 3 ≤ k → k % 2 = 1 → n + 1 < k + fuel →
      (∀ j, 3 ≤ j → j < k → j % 2 = 1 → ¬ j ∣ n) →
      isPrimeLoop (n : Int) fuel (k : Int) = some (decide (Nat.Prime n)) := by
  intro fuel
  induction fuel with
  | zero => intro k h1; omega
  | succ f ih =>
    intro k _ hk3 hkodd hfuel hinv
    unfold isPrimeLoop
    by_cases hsq : k * k ≤ n
    · have hsqi : (k : Int) * (k : Int) ≤ (n : Int) := by exact_mod_cast hsq
      rw [if_pos hsqi]
      have hkn : k < n := by nlinarith
      by_cases hdiv : n % k = 0
      · have hdivi : (n : Int) % (k : Int) = 0 := by exact_mod_cast hdiv
        rw [if_pos hdivi]
        have hnp : ¬ Nat.Prime n := by
          intro hp
          rcases (Nat.dvd_prime hp).mp (Nat.dvd_of_mod_eq_zero hdiv) with h | h <;> omega
        simp [hnp]
      · have hdivi : ¬ (n : Int) % (k : Int) = 0 := by exact_mod_cast hdiv
        rw [if_neg hdivi]
        have hcast : (k : Int) + 2 = ((k + 2 : Nat) : Int) := by push_cast; ring
        rw [hcast]
        apply ih (k + 2) (by omega) (by omega) (by omega) (by omega)
        intro j hj3 hjk hjodd hjdvd
        by_cases hjk1 : j < k
        · exact hinv j hj3 hjk1 hjodd hjdvd
        · have hjeq : j = k := by omega
          rw [hjeq] at hjdvd
          exact hdiv (Nat.mod_eq_zero_of_dvd hjdvd)
    · have hsqi : ¬ (k : Int) * (k : Int) ≤ (n : Int) := by exact_mod_cast hsq
      rw [if_neg hsqi]
      have hp : Nat.Prime n := by
        rw [Nat.prime_def_le_sqrt]
        refine ⟨by omega, ?_⟩
        intro m hm2 hmsq hmdvd
        have hmm : m * m ≤ n := Nat.le_sqrt.mp hmsq
        have hmk : m < k := by
          by_contra hge
          have hge1 : k ≤ m := Nat.le_of_not_lt hge
          have : k * k ≤ m * m := Nat.mul_le_mul hge1 hge1
          omega
        by_cases hmodd : m % 2 = 1
        · exact hinv m (by omega) hmk hmodd hmdvd
        · have h2m : 2 ∣ m := Nat.dvd_of_mod_eq_zero (by omega)
          have h2n : 2 ∣ n := Nat.dvd_trans h2m hmdvd
          omega
      simp [hp]

/-- Member `isPrime` returns, on every `int`, whether its argument is a prime
number. -/
theorem isPrime_eq (num : Int) : isPrime num = some (decide (Nat.Prime num.toNat)) := by
  unfold isPrime
  by_cases h2 : num < 2
  · rw [if_pos h2]
    have hnp : ¬ Nat.Prime num.toNat := by
      intro hp
      have := hp.two_le
      omega
    simp [hnp]
  · rw [if_neg h2]
    obtain ⟨n, rfl⟩ : ∃ n : Nat, num = (n : Int) := ⟨num.toNat, by omega⟩
    have hn2 : 2 ≤ n := by omega
    rw [Int.toNat_ofNat]
    by_cases h23 : (n : Int) = 2 ∨ (n : Int) = 3
    · rw [if_pos h23]
      have hp : Nat.Prime n := by
        rcases h23 with h | h
        · have : n = 2 := by exact_mod_cast h
          rw [this]; exact Nat.prime_two
        · have : n = 3 := by exact_mod_cast h
          rw [this]; exact Nat.prime_three
      simp [hp]
    · rw [if_neg h23]
      have hn23 : n ≠ 2 ∧ n ≠ 3 := by
        constructor
        · intro h; exact h23 (Or.inl (by exact_mod_cast h))
        · intro h; exact h23 (Or.inr (by exact_mod_cast h))
      by_cases hev : n % 2 = 0
      · have hevi : (n : Int) % 2 = 0 := by exact_mod_cast hev
        rw [if_pos hevi]
        have hnp : ¬ Nat.Prime n := by
          intro hp
          rcases (Nat.dvd_prime hp).mp (Nat.dvd_of_mod_eq_zero hev) with h | h <;> omega
        simp [hnp]
      · have hevi : ¬ (n : Int) % 2 = 0 := by exact_mod_cast hev
        rw [if_neg hevi]
        have h3 : ((3 : Nat) : Int) = 3 := rfl
        rw [← h3]
        apply isPrimeLoop_nat n (by omega) (by omega) n 3 (by omega) (by omega) (by omega)
          (by omega)
        intro j hj3 hj
        omega

/-- The loop of `nextPrime`: when a prime lies among the `fuel` numbers from
`num` on, the loop returns the least prime at or above `num`. -/
theorem nextPrimeLoop_least :
    ∀ (fuel : Nat) (num : Int),
      (∃ m : Int, num ≤ m ∧ m < num + fuel ∧ Nat.Prime m.toNat) →
      ∃ q : Int, nextPrimeLoop fuel num = some q ∧ num ≤ q ∧ Nat.Prime q.toNat ∧
        ∀ m : Int, num ≤ m → m < q → ¬ Nat.Prime m.toNat := by
  intro fuel
  induction fuel with
  | zero =>
    intro num h
    obtain ⟨m, h1, h2, _⟩ := h
    simp at h2
    omega
  | succ f ih =>
    intro num h
    obtain ⟨m, h1, h2, hm⟩ := h
    unfold nextPrimeLoop
    rw [isPrime_eq]
    by_cases hp : Nat.Prime num.toNat
    · simp only [hp, decide_True]
      exact ⟨num, rfl, le_refl _, hp, fun m h1 h2 => by omega⟩
    · simp only [hp, decide_False]
      have hne : m ≠ num := by
        intro h; rw [h] at hm; exact hp hm
      obtain ⟨q, hq, hle, hqp, hleast⟩ := ih (num + 1) ⟨m, by omega, by push_cast at h2; omega, hm⟩
      refine ⟨q, hq, by omega, hqp, ?_⟩
      intro m1 hm1 hm1q
      by_cases hm1n : m1 = num
      · rw [hm1n]; exact hp
      · exact hleast m1 (by omega) hm1q

/-- A prime lies within the attempts `nextPrime` allows itself. -/
theorem exists_prime_in_fuel (num : Int) :
    ∃ m : Int, num ≤ m ∧ m < num + ((num.natAbs + 3 : Nat) : Int) ∧ Nat.Prime m.toNat := by
  have hcast : ((num.natAbs + 3 : Nat) : Int) = (num.natAbs : Int) + 3 := by push_cast; ring
  rw [hcast]
  by_cases h : 1 ≤ num
  · obtain ⟨p, hp, hlt, hle⟩ := Nat.exists_prime_lt_and_le_two_mul num.toNat (by omega)
    have habs : (num.natAbs : Int) = num := Int.natAbs_of_nonneg (by omega)
    refine ⟨(p : Int), by omega, by omega, by simpa using hp⟩
  · have habs : (num.natAbs : Int) = -num := Int.ofNat_natAbs_of_nonpos (by omega)
    exact ⟨2, by omega, by omega, Nat.prime_two⟩

/-- Member `nextPrime` returns, on every `int`, the least prime at or above its
argument. -/
theorem nextPrime_least (num : Int) :
    ∃ q : Int, nextPrime num = some q ∧ num ≤ q ∧ Nat.Prime q.toNat ∧
      ∀ m : Int, num ≤ m → m < q → ¬ Nat.Prime m.toNat :=
  nextPrimeLoop_least (num.natAbs + 3) num (exists_prime_in_fuel num)

/-- The new capacity of `rehash` for a table of `c` slots: `nextPrime(2 * c)`
returns the least prime `p` with `2 * c ≤ p`. -/
theorem nextPrime_double (c : Nat) :
    ∃ p : Nat, nextPrime ((c * 2 : Nat) : Int) = some (p : Int) ∧ Nat.Prime p ∧ 2 * c ≤ p ∧
      ∀ q, Nat.Prime q → 2 * c ≤ q → p ≤ q := by
  obtain ⟨q, hq, hle, hqp, hleast⟩ := nextPrime_least ((c * 2 : Nat) : Int)
  have hq0 : 0 ≤ q := by omega
  refine ⟨q.toNat, by rw [Int.toNat_of_nonneg hq0]; exact hq, hqp, by omega, ?_⟩
  intro r hr hcr
  by_contra hlt
  exact hleast (r : Int) (by omega) (by omega) (by simpa using hr)

/-! ## Quadratic probes modulo a prime -/

/-- The first `(p + 1) / 2` quadratic probes modulo a prime `p` visit pairwise
different slots. -/
theorem probeIndex_injective {p : Nat} (hp : Nat.Prime p) (b i j : Nat) (hij : i < j)
    (hj : j < (p + 1) / 2) : probeIndex p b i ≠ probeIndex p b j := by
  intro h
  unfold probeIndex at h
  have h1 : i * i ≡ j * j [MOD p] := Nat.ModEq.add_left_cancel' b h
  have hle : i * i ≤ j * j := Nat.mul_le_mul (le_of_lt hij) (le_of_lt hij)
  have h2 : p ∣ j * j - i * i := (Nat.modEq_iff_dvd' hle).mp h1
  have h3 : j * j - i * i = (j - i) * (j + i) := by
    have : j * j = (j - i) * (j + i) + i * i := by
      obtain ⟨d, rfl⟩ : ∃ d, j = i + d := ⟨j - i, by omega⟩
      rw [Nat.add_sub_cancel_left]; ring
    omega
  rw [h3] at h2
  rcases (Nat.Prime.dvd_mul hp).mp h2 with h4 | h4
  · have := Nat.le_of_dvd (by omega) h4
    omega
  · have := Nat.le_of_dvd (by omega) h4
    omega

section Counting
variable [Inhabited α]

theorem slot_append_left (tbl : List (Bucket α)) (b : Bucket α) (k : Nat) (hk : k < tbl.length) :
    slot (tbl ++ [b]) k = slot tbl k := by
  unfold slot
  rw [List.getD_eq_getElem?_getD, List.getD_eq_getElem?_getD, List.getElem?_append_left hk]

theorem slot_append_length (tbl : List (Bucket α)) (b : Bucket α) :
    slot (tbl ++ [b]) tbl.length = b := by
  unfold slot
  rw [List.getD_eq_getElem?_getD]
  simp

/-- The occupied slots, counted through their indices. -/
theorem card_occupied_indices (tbl : List (Bucket α)) :
    ((Finset.range tbl.length).filter fun k => (slot tbl k).occupied = true).card
      = occupiedSlots tbl := by
  induction tbl using List.reverseRecOn with
  | nil => simp [occupiedSlots]
  | append_singleton tbl b ih =>
    have hcongr : ((Finset.range tbl.length).filter
          fun k => (slot (tbl ++ [b]) k).occupied = true)
        = (Finset.range tbl.length).filter fun k => (slot tbl k).occupied = true := by
      apply Finset.filter_congr
      intro k hk
      rw [slot_append_left tbl b k (Finset.mem_range.mp hk)]
    rw [List.length_append, List.length_singleton, Finset.range_succ, Finset.filter_insert,
      slot_append_length]
    unfold occupiedSlots at ih ⊢
    rw [List.countP_append, ← ih]
    by_cases hb : b.occupied = true
    · rw [if_pos hb, Finset.card_insert_of_not_mem (by simp), hcongr]
      simp [hb]
    · rw [if_neg hb, hcongr]
      simp [hb]

/-- Pigeonhole on the probe sequence: in a table of prime size with fewer than
`(p + 1) / 2` occupied slots, one of the first `(p + 1) / 2` attempts from any
base meets a non-occupied slot. -/
theorem exists_free_attempt (tbl : List (Bucket α)) (b : Nat) (hp : Nat.Prime tbl.length)
    (hload : occupiedSlots tbl < (tbl.length + 1) / 2) :
    ∃ i, i < (tbl.length + 1) / 2 ∧
      (slot tbl (probeIndex tbl.length b i)).occupied = false := by
  by_contra hcon
  have hall : ∀ i, i < (tbl.length + 1) / 2 →
      (slot tbl (probeIndex tbl.length b i)).occupied = true := by
    intro i hi
    by_contra hne
    exact hcon ⟨i, hi, by simpa using hne⟩
  have hinj : Set.InjOn (probeIndex tbl.length b) (Finset.range ((tbl.length + 1) / 2)) := by
    intro i hi j hj hEq
    have hi1 : i < (tbl.length + 1) / 2 := Finset.mem_range.mp hi
    have hj1 : j < (tbl.length + 1) / 2 := Finset.mem_range.mp hj
    rcases Nat.lt_trichotomy i j with h | h | h
    · exact absurd hEq (probeIndex_injective hp b i j h hj1)
    · exact h
    · exact absurd hEq.symm (probeIndex_injective hp b j i h hi1)
  have hsub : (Finset.range ((tbl.length + 1) / 2)).image (probeIndex tbl.length b)
      ⊆ (Finset.range tbl.length).filter fun k => (slot tbl k).occupied = true := by
    intro k hk
    obtain ⟨i, hi, rfl⟩ := Finset.mem_image.mp hk
    exact Finset.mem_filter.mpr
      ⟨Finset.mem_range.mpr (probeIndex_lt hp.pos b i), hall i (Finset.mem_range.mp hi)⟩
  have hcard := Finset.card_le_card hsub
  rw [Finset.card_image_of_injOn hinj, Finset.card_range, card_occupied_indices] at hcard
  omega

end Counting

/-! ## Writing a slot -/

section WriteSlot
variable [Inhabited α]

theorem slot_eq_getElem (tbl : List (Bucket α)) (k : Nat) (hk : k < tbl.length) :
    slot tbl k = tbl[k] := by
  unfold slot
  rw [List.getD_eq_getElem?_getD, List.getElem?_eq_getElem hk]
  rfl

theorem length_writeSlot (tbl : List (Bucket α)) (k : Nat) (v : α) :
    (writeSlot tbl k v).length = tbl.length := by
  unfold writeSlot
  exact List.length_set _ _ _

theorem slot_writeSlot_self (tbl : List (Bucket α)) (k : Nat) (v : α) (hk : k < tbl.length) :
    slot (writeSlot tbl k v) k = { slot tbl k with value := v, occupied := true } := by
  rw [slot_eq_getElem _ k (by rw [length_writeSlot]; exact hk)]
  unfold writeSlot
  rw [List.getElem_set_self]

theorem slot_writeSlot_ne (tbl : List (Bucket α)) (k j : Nat) (v : α) (hjk : j ≠ k) :
    slot (writeSlot tbl k v) j = slot tbl j := by
  unfold slot writeSlot
  rw [List.getD_eq_getElem?_getD, List.getD_eq_getElem?_getD, List.getElem?_set_ne (Ne.symm hjk)]

theorem occupiedSlots_writeSlot (tbl : List (Bucket α)) (k : Nat) (v : α) (hk : k < tbl.length)
    (hfree : (slot tbl k).occupied = false) :
    occupiedSlots (writeSlot tbl k v) = occupiedSlots tbl + 1 := by
  unfold occupiedSlots writeSlot
  rw [List.countP_set _ _ _ _ hk]
  rw [slot_eq_getElem tbl k hk] at hfree
  simp [hfree]

theorem occupiedValues_writeSlot (tbl : List (Bucket α)) (k : Nat) (v : α) (hk : k < tbl.length)
    (hfree : (slot tbl k).occupied = false) :
    occupiedValues (writeSlot tbl k v) = v ::ₘ occupiedValues tbl := by
  rw [slot_eq_getElem tbl k hk] at hfree
  have hsplit : tbl = tbl.take k ++ tbl[k] :: tbl.drop (k + 1) := by
    simp
  have hset : writeSlot tbl k v
      = tbl.take k ++ { slot tbl k with value := v, occupied := true } :: tbl.drop (k + 1) := by
    unfold writeSlot
    rw [List.set_eq_take_append_cons_drop, if_pos hk]
  have hold : occupiedValues tbl
      = (((tbl.take k).filter fun b => b.occupied).map (fun b => b.value)
          ++ ((tbl.drop (k + 1)).filter fun b => b.occupied).map (fun b => b.value) : List α) := by
    unfold occupiedValues
    conv_lhs => rw [hsplit]
    rw [List.filter_append, List.filter_cons_of_neg (by simp [hfree]), List.map_append]
  rw [hold, hset]
  unfold occupiedValues
  rw [List.filter_append, List.filter_cons_of_pos (by simp), List.map_append, List.map_cons,
    Multiset.cons_coe]
  exact Multiset.coe_eq_coe.mpr List.perm_middle

theorem writeSlot_not_deleted (tbl : List (Bucket α)) (k : Nat) (v : α)
    (h : ∀ b ∈ tbl, b.deleted = false) :
    ∀ b ∈ writeSlot tbl k v, b.deleted = false := by
  intro b hb
  unfold writeSlot at hb
  rcases List.mem_or_eq_of_mem_set hb with hb | hb
  · exact h b hb
  · rw [hb]
    show (slot tbl k).deleted = false
    unfold slot
    rw [List.getD_eq_getElem?_getD]
    cases hget : tbl[k]? with
    | none => rfl
    | some c => exact h c (List.getElem?_mem hget)

end WriteSlot

/-! ## Termination of the probe loops at a free slot -/

section FreeAttempt
variable [Inhabited α]

theorem probeFree_of_free (tbl : List (Bucket α)) (index j : Nat)
    (hfree : (slot tbl (probeIndex tbl.length index j)).occupied = false) :
    ∀ (fuel i : Nat), i ≤ j → j < i + fuel →
      ∃ r, probeFree tbl index fuel i = some r ∧ r ≤ j := by
  intro fuel
  induction fuel with
  | zero => intro i h1 h2; omega
  | succ n ih =>
    intro i h1 h2
    unfold probeFree
    by_cases hocc : (slot tbl (probeIndex tbl.length index i)).occupied = true
    · rw [if_pos hocc]
      have hne : i ≠ j := by
        intro h; rw [h, hfree] at hocc; cases hocc
      exact ih (i + 1) (by omega) (by omega)
    · rw [if_neg hocc]
      exact ⟨i, rfl, h1⟩

/-- What a placement does to the table: the size stays, one more slot is
occupied, the value joins the stored values, and no slot becomes deleted. -/
theorem place_effect (tbl tbl1 : List (Bucket α)) (index : Nat) (v : α)
    (h : place tbl index v = some tbl1) :
    tbl1.length = tbl.length ∧ occupiedSlots tbl1 = occupiedSlots tbl + 1 ∧
      occupiedValues tbl1 = v ::ₘ occupiedValues tbl ∧
      ((∀ b ∈ tbl, b.deleted = false) → ∀ b ∈ tbl1, b.deleted = false) := by
  obtain ⟨i, hi, hw⟩ := place_eq_some tbl tbl1 index v h
  obtain ⟨_, hlt, hfree, _⟩ := probeFree_some tbl index i _ _ hi
  have hpos : 0 < tbl.length := by omega
  have hk := probeIndex_lt hpos index i
  rw [hw]
  exact ⟨length_writeSlot _ _ _, occupiedSlots_writeSlot _ _ _ hk hfree,
    occupiedValues_writeSlot _ _ _ hk hfree, writeSlot_not_deleted _ _ _⟩

/-- A placement returns in a table of prime size that is less than half
occupied. -/
theorem place_of_half_load (tbl : List (Bucket α)) (index : Nat) (v : α)
    (hp : Nat.Prime tbl.length) (hload : occupiedSlots tbl < (tbl.length + 1) / 2) :
    ∃ tbl1, place tbl index v = some tbl1 := by
  obtain ⟨j, hj, hfree⟩ := exists_free_attempt tbl index hp hload
  obtain ⟨r, hr, _⟩ := probeFree_of_free tbl index j hfree tbl.length 0 (Nat.zero_le _)
    (by omega)
  exact ⟨_, by unfold place; rw [hr]; rfl⟩

end FreeAttempt

/-! ## The rehash loop -/

theorem liveValues_cons_live (entry : Bucket α) (rest : List (Bucket α))
    (hlive : entry.occupied = true ∧ ¬ entry.deleted = true) :
    liveValues (entry :: rest) = entry.value ::ₘ liveValues rest := by
  unfold liveValues
  rw [List.filter_cons_of_pos (by simpa using hlive), List.map_cons, Multiset.cons_coe]

theorem liveValues_cons_dead (entry : Bucket α) (rest : List (Bucket α))
    (hdead : ¬ (entry.occupied = true ∧ ¬ entry.deleted = true)) :
    liveValues (entry :: rest) = liveValues rest := by
  unfold liveValues
  rw [List.filter_cons_of_neg (by simpa using hdead)]

theorem liveSlots_cons_live (entry : Bucket α) (rest : List (Bucket α))
    (hlive : entry.occupied = true ∧ ¬ entry.deleted = true) :
    liveSlots (entry :: rest) = liveSlots rest + 1 := by
  unfold liveSlots
  rw [List.filter_cons_of_pos (by simpa using hlive), List.length_cons]

theorem liveSlots_cons_dead (entry : Bucket α) (rest : List (Bucket α))
    (hdead : ¬ (entry.occupied = true ∧ ¬ entry.deleted = true)) :
    liveSlots (entry :: rest) = liveSlots rest := by
  unfold liveSlots
  rw [List.filter_cons_of_neg (by simpa using hdead)]

theorem liveSlots_le_length (tbl : List (Bucket α)) : liveSlots tbl ≤ tbl.length := by
  unfold liveSlots
  exact List.length_filter_le _ _

section FreshTable
variable [Inhabited α]

theorem occupiedSlots_replicate (n : Nat) :
    occupiedSlots (List.replicate n (default : Bucket α)) = 0 := by
  unfold occupiedSlots
  rw [List.countP_eq_zero]
  intro b hb
  rw [List.eq_of_mem_replicate hb]
  simp [default]

theorem occupiedValues_replicate (n : Nat) :
    occupiedValues (List.replicate n (default : Bucket α)) = 0 := by
  unfold occupiedValues
  have : (List.replicate n (default : Bucket α)).filter (fun b => b.occupied) = [] := by
    rw [List.filter_eq_nil_iff]
    intro b hb
    rw [List.eq_of_mem_replicate hb]
    simp [default]
  rw [this]
  rfl

theorem replicate_not_deleted (n : Nat) :
    ∀ b ∈ List.replicate n (default : Bucket α), b.deleted = false := by
  intro b hb
  rw [List.eq_of_mem_replicate hb]
  rfl
end FreshTable

section RehashLoop
variable [Inhabited α] [BuiltinHash α]

/-- What the loop of `rehash` builds, when it returns: a table of the same size
as the fresh one, holding in occupied slots the values it started with and the
live values of the entries, and free of deleted marks. -/
theorem rehashLoop_effect (t : Hashtable α) :
    ∀ (entries newTable out : List (Bucket α)), rehashLoop t entries newTable = some out →
      out.length = newTable.length ∧
      occupiedSlots out = occupiedSlots newTable + liveSlots entries ∧
      occupiedValues out = occupiedValues newTable + liveValues entries ∧
      ((∀ b ∈ newTable, b.deleted = false) → ∀ b ∈ out, b.deleted = false) := by
  intro entries
  induction entries with
  | nil =>
    intro newTable out h
    have h1 : newTable = out := by simpa [rehashLoop] using h
    rw [← h1]
    refine ⟨rfl, by simp [liveSlots], by simp [liveValues], fun hd => hd⟩
  | cons entry rest ih =>
    intro newTable out h
    by_cases hlive : entry.occupied = true ∧ ¬ entry.deleted = true
    · obtain ⟨index, newTable1, _, hp, h2⟩ :=
        rehashLoop_cons_live t entry rest newTable out hlive h
      obtain ⟨hl1, ho1, hv1, hd1⟩ := place_effect newTable newTable1 index entry.value hp
      obtain ⟨hl2, ho2, hv2, hd2⟩ := ih newTable1 out h2
      refine ⟨by rw [hl2, hl1], ?_, ?_, fun hd => hd2 (hd1 hd)⟩
      · rw [ho2, ho1, liveSlots_cons_live entry rest hlive]; omega
      · rw [hv2, hv1, liveValues_cons_live entry rest hlive]
        simp [Multiset.cons_add, Multiset.add_cons]
    · rw [rehashLoop_cons_dead t entry rest newTable hlive] at h
      obtain ⟨hl2, ho2, hv2, hd2⟩ := ih newTable out h
      exact ⟨hl2, by rw [ho2, liveSlots_cons_dead entry rest hlive],
        by rw [hv2, liveValues_cons_dead entry rest hlive], hd2⟩

/-- The loop of `rehash` returns when the new table has prime size and room for
twice the entries still to be placed on top of what it holds. -/
theorem rehashLoop_total (t : Hashtable α) (hcap : 0 < t.table.length) :
    ∀ (entries newTable : List (Bucket α)), Nat.Prime newTable.length →
      2 * (occupiedSlots newTable + entries.length) ≤ newTable.length →
      ∃ out, rehashLoop t entries newTable = some out := by
  intro entries
  induction entries with
  | nil => intro newTable _ _; exact ⟨newTable, rfl⟩
  | cons entry rest ih =>
    intro newTable hp hroom
    rw [List.length_cons] at hroom
    by_cases hlive : entry.occupied = true ∧ ¬ entry.deleted = true
    · obtain ⟨tbl1, h1⟩ := place_of_half_load newTable
        ((builtin_hash entry.value + 0 * 0) % t.table.length) entry.value hp (by omega)
      obtain ⟨hl1, ho1, _, _⟩ := place_effect _ _ _ _ h1
      obtain ⟨out, hout⟩ := ih tbl1 (by rw [hl1]; exact hp) (by rw [hl1, ho1]; omega)
      refine ⟨out, ?_⟩
      rw [rehashLoop, if_pos hlive, hash_of_pos t entry.value 0 hcap, Option.some_bind, h1,
        Option.some_bind]
      exact hout
    · rw [rehashLoop_cons_dead t entry rest newTable hlive]
      exact ih newTable hp (by omega)

/-- Member `rehash()` returns on every table with at least one slot; the new
table has the least prime size `p ≥ 2 * capacity`, holds exactly the live values
in its occupied slots, has no deleted slot and at most `capacity` occupied
ones. -/
theorem rehash_total (t : Hashtable α) (hcap : 0 < t.table.length) :
    ∃ (t1 : Hashtable α) (p : Nat), t.rehash = some t1 ∧ t1.table.length = p ∧ Nat.Prime p ∧
      2 * t.table.length ≤ p ∧ (∀ q, Nat.Prime q → 2 * t.table.length ≤ q → p ≤ q) ∧
      occupiedValues t1.table = liveValues t.table ∧
      occupiedSlots t1.table = liveSlots t.table ∧
      (∀ b ∈ t1.table, b.deleted = false) ∧
      t1.count = t.count ∧ t1.loadFactorThreshold = t.loadFactorThreshold := by
  obtain ⟨p, hnp, hp, hle, hleast⟩ := nextPrime_double t.table.length
  have hlen : (List.replicate p (default : Bucket α)).length = p := List.length_replicate _ _
  obtain ⟨out, hout⟩ := rehashLoop_total t hcap t.table (List.replicate p default)
    (by rw [hlen]; exact hp) (by rw [hlen, occupiedSlots_replicate]; omega)
  obtain ⟨hl, ho, hv, hd⟩ := rehashLoop_effect t _ _ _ hout
  refine ⟨{ t with table := out }, p, ?_, by rw [hl, hlen], hp, hle, hleast, ?_, ?_,
    hd (replicate_not_deleted p), rfl, rfl⟩
  · unfold Hashtable.rehash
    rw [hnp, Option.some_bind, Int.toNat_ofNat, hout]
    rfl
  · rw [hv, occupiedValues_replicate, zero_add]
  · rw [ho, occupiedSlots_replicate, zero_add]

end RehashLoop

/-! ## More attempts do not change a result -/

section FuelMono
variable [Inhabited α]

end FuelMono

/-! ## Lookups around a write -/

section LookupWrite
variable [Inhabited α] [DecidableEq α]

end LookupWrite

/-! ## Reachable states, growth -/

/-- A placement returns in a table of prime size that is at most half
occupied: below half load by `place_of_half_load`, and in a table of two slots
with one of them occupied because attempts 0 and 1 visit both slots. -/
theorem place_of_room [Inhabited α] (tbl : List (Bucket α)) (index : Nat) (v : α)
    (hp : Nat.Prime tbl.length) (hroom : 2 * occupiedSlots tbl ≤ tbl.length) :
    ∃ tbl1, place tbl index v = some tbl1 := by
  rcases Nat.Prime.eq_two_or_odd hp with h2 | hodd
  · have hfree : ∃ j, j < 2 ∧ (slot tbl (probeIndex tbl.length index j)).occupied = false := by
      by_contra hcon
      have hall : ∀ j, j < 2 → (slot tbl (probeIndex tbl.length index j)).occupied = true := by
        intro j hj
        by_contra hne
        exact hcon ⟨j, hj, by simpa using hne⟩
      have h0 := hall 0 (by omega)
      have h1 := hall 1 (by omega)
      unfold probeIndex at h0 h1
      rw [h2] at h0 h1
      have hfull : ((Finset.range tbl.length).filter fun k => (slot tbl k).occupied = true)
          = Finset.range tbl.length := by
        apply Finset.filter_true_of_mem
        intro k hk
        rw [h2] at hk
        have hk2 : k < 2 := Finset.mem_range.mp hk
        rcases Nat.mod_two_eq_zero_or_one index with hi | hi
        · rcases Nat.lt_or_ge k 1 with hk1 | hk1
          · have : (index + 0 * 0) % 2 = k := by omega
            rw [← this]; exact h0
          · have : (index + 1 * 1) % 2 = k := by omega
            rw [← this]; exact h1
        · rcases Nat.lt_or_ge k 1 with hk1 | hk1
          · have : (index + 1 * 1) % 2 = k := by omega
            rw [← this]; exact h1
          · have : (index + 0 * 0) % 2 = k := by omega
            rw [← this]; exact h0
      have hcard := card_occupied_indices tbl
      rw [hfull, Finset.card_range] at hcard
      omega
    obtain ⟨j, hj, hjfree⟩ := hfree
    obtain ⟨r, hr, _⟩ := probeFree_of_free tbl index j hjfree tbl.length 0 (Nat.zero_le _)
      (by omega)
    exact ⟨_, by unfold place; rw [hr]; rfl⟩
  · exact place_of_half_load tbl index v hp (by omega)

section Growth
variable [Inhabited α] [BuiltinHash α]

theorem reachable_insertAll [DecidableEq α] (vs : List α) :
    ∀ (t t1 : Hashtable α), Reachable t → insertAll t vs = some t1 → Reachable t1 := by
  induction vs with
  | nil =>
    intro t t1 hr h
    have h1 : t = t1 := by simpa [insertAll] using h
    rw [← h1]; exact hr
  | cons v rest ih =>
    intro t t1 hr h
    obtain ⟨t2, h2, h3⟩ := Option.bind_eq_some.mp (by simpa [insertAll] using h)
    exact ih t2 t1 (Reachable.insert v hr h2) h3

/-- The loop of `rehash` over a split list of entries runs over the first part
and continues over the second from the table reached. -/
theorem rehashLoop_append (t : Hashtable α) :
    ∀ (pre rest newTable : List (Bucket α)),
      rehashLoop t (pre ++ rest) newTable
        = (rehashLoop t pre newTable).bind fun tbl => rehashLoop t rest tbl := by
  intro pre
  induction pre with
  | nil => intro rest newTable; rfl
  | cons entry pre ih =>
    intro rest newTable
    rw [List.cons_append]
    by_cases hlive : entry.occupied = true ∧ ¬ entry.deleted = true
    · rw [rehashLoop, rehashLoop, if_pos hlive, if_pos hlive]
      cases t.hash entry.value 0 with
      | none => rfl
      | some index =>
        rw [Option.some_bind, Option.some_bind]
        cases place newTable index entry.value with
        | none => rfl
        | some tbl1 =>
          rw [Option.some_bind, Option.some_bind]
          exact ih rest tbl1
    · rw [rehashLoop_cons_dead t entry _ newTable hlive,
        rehashLoop_cons_dead t entry _ newTable hlive]
      exact ih rest newTable

end Growth
/-! ## The claims on rehashing, growth and placement -/

/-- Placement on the exact probe sequence (`index + i * i` below `INT_MAX` at
every attempt made). For a table with capacity `c ≥ 1` and a value `v` whose
`insert(v)` does not rehash and returns: there is a least attempt `i` whose slot
`(builtin_hash(v) mod c + i*i) mod c` is non-occupied (every earlier attempt
meets an occupied slot, deleted or not), `insert(v)` writes `v` and
`occupied = true` into that slot, and it leaves every other slot, the capacity
and the threshold unchanged. -/
theorem insert_placement [Inhabited α] [BuiltinHash α] (t t1 : Hashtable α) (v : α)
    (hcap : 1 ≤ t.getCapacity) (hno : t.needsRehash = false) (h : t.insert v = some t1) :
    ∃ i : Nat,
      (slot t.table (probeIndex t.getCapacity (builtin_hash v % t.getCapacity) i)).occupied
        = false ∧
      (∀ m, m < i →
        (slot t.table (probeIndex t.getCapacity (builtin_hash v % t.getCapacity) m)).occupied
          = true) ∧
      slot t1.table (probeIndex t.getCapacity (builtin_hash v % t.getCapacity) i)
        = { slot t.table (probeIndex t.getCapacity (builtin_hash v % t.getCapacity) i) with
            value := v, occupied := true } ∧
      (∀ k, k ≠ probeIndex t.getCapacity (builtin_hash v % t.getCapacity) i →
        slot t1.table k = slot t.table k) ∧
      t1.getCapacity = t.getCapacity ∧
      t1.getLoadFactorThreshold = t.getLoadFactorThreshold := by
  unfold Hashtable.getCapacity at hcap ⊢
  have hpos : 0 < t.table.length := hcap
  obtain ⟨t2, index, tbl, hg, hh, hp, ht1⟩ := insert_eq_some t t1 v h
  rw [if_neg (by simp [hno])] at hg
  have h2 : t = t2 := Option.some.inj hg
  rw [← h2] at hh hp ht1
  rw [hash_of_pos t v 0 hpos] at hh
  have hidx : index = builtin_hash v % t.table.length := by
    have := Option.some.inj hh
    simpa using this.symm
  rw [hidx] at hp
  obtain ⟨i, hi, hw⟩ := place_eq_some _ _ _ _ hp
  obtain ⟨_, _, hfree, hbefore⟩ := probeFree_some _ _ _ _ _ hi
  have htbl : t1.table = tbl := by rw [ht1]
  refine ⟨i, hfree, fun m hm => hbefore m (Nat.zero_le m) hm, ?_, ?_, ?_, by rw [ht1]; rfl⟩
  · rw [htbl, hw]
    exact slot_writeSlot_self _ _ _ (probeIndex_lt hpos _ _)
  · intro k hk
    rw [htbl, hw]
    exact slot_writeSlot_ne _ _ _ _ hk
  · rw [htbl, hw]
    exact length_writeSlot _ _ _

/-- An instance of `insert_placement`: `insert(5)` on `tombstoneTable` skips the tombstone in slot 5
and writes into slot 6. -/
theorem insert_placement_witness :
    1 ≤ tombstoneTable.getCapacity ∧ tombstoneTable.needsRehash = false ∧
      tombstoneTable.insert 5 = some tombstoneReinserted ∧
      ∃ i : Nat,
        (slot tombstoneTable.table
          (probeIndex tombstoneTable.getCapacity
            (builtin_hash (5 : Int) % tombstoneTable.getCapacity) i)).occupied = false ∧
        (∀ m, m < i →
          (slot tombstoneTable.table
            (probeIndex tombstoneTable.getCapacity
              (builtin_hash (5 : Int) % tombstoneTable.getCapacity) m)).occupied = true) ∧
        slot tombstoneReinserted.table
            (probeIndex tombstoneTable.getCapacity
              (builtin_hash (5 : Int) % tombstoneTable.getCapacity) i)
          = { slot tombstoneTable.table
                (probeIndex tombstoneTable.getCapacity
                  (builtin_hash (5 : Int) % tombstoneTable.getCapacity) i) with
              value := 5, occupied := true } ∧
        (∀ k, k ≠ probeIndex tombstoneTable.getCapacity
              (builtin_hash (5 : Int) % tombstoneTable.getCapacity) i →
          slot tombstoneReinserted.table k = slot tombstoneTable.table k) ∧
        tombstoneReinserted.getCapacity = tombstoneTable.getCapacity ∧
        tombstoneReinserted.getLoadFactorThreshold = tombstoneTable.getLoadFactorThreshold :=
  ⟨by decide, by decide, by decide,
    insert_placement tombstoneTable tombstoneReinserted 5 (by decide) (by decide) (by decide)⟩

/-! ## The claims on termination, lookup and the prime search -/

/-- C19. For every integer `n` (exact `int` arithmetic), `nextPrime(n)` returns a
prime `q ≥ n` with no prime in `[n, q)`; it returns `n` itself when `n` is prime;
and `nextPrime(34) = 37`. -/
theorem nextPrime_least_prime (n : Int) :
    (∃ q : Int, nextPrime n = some q ∧ n ≤ q ∧ Nat.Prime q.toNat ∧
      ∀ m : Int, n ≤ m → m < q → ¬ Nat.Prime m.toNat) ∧
    (Nat.Prime n.toNat → nextPrime n = some n) ∧
    nextPrime 34 = some 37 := by
  obtain ⟨q, hq, hle, hqp, hleast⟩ := nextPrime_least n
  refine ⟨⟨q, hq, hle, hqp, hleast⟩, ?_, by decide⟩
  intro hn
  have hqn : q = n := by
    by_contra hne
    exact hleast n (le_refl n) (by omega) hn
  rw [hqn] at hq; exact hq

/-- C20. For every integer `n` (exact `int` arithmetic), `isPrime(n)` returns,
and it returns true if and only if `n` is a prime number; it returns false for
every `n < 2`. -/
theorem isPrime_decides_primality (n : Int) :
    ∃ b : Bool, isPrime n = some b ∧ (b = true ↔ 0 ≤ n ∧ Nat.Prime n.toNat) ∧
      (n < 2 → b = false) := by
  refine ⟨decide (Nat.Prime n.toNat), isPrime_eq n, ?_, ?_⟩
  · rw [decide_eq_true_iff]
    constructor
    · intro hp
      refine ⟨?_, hp⟩
      have := hp.two_le
      omega
    · intro hp; exact hp.2
  · intro hlt
    rw [decide_eq_false_iff_not]
    intro hp
    have := hp.two_le
    omega

/-! ## Arithmetic of the compiled subscript -/

theorem wrapInt_of_range (x : Int) (h1 : -2147483648 ≤ x) (h2 : x < 2147483648) :
    wrapInt x = x := by
  unfold wrapInt
  omega

/-- Twice a size is kept by the conversion to `int` while it does not exceed
`INT_MAX`. -/
theorem wrapInt_double (n : Nat) (h : 2 * n ≤ 2147483647) :
    wrapInt (((n * 2) % 18446744073709551616 : Nat) : Int) = ((n * 2 : Nat) : Int) := by
  rw [Nat.mod_eq_of_lt (by omega)]
  exact wrapInt_of_range _ (by omega) (by omega)

theorem wrapInt_succ (n : Nat) : wrapInt (wrapInt (n : Int) + 1) = wrapInt ((n + 1 : Nat) : Int) := by
  unfold wrapInt
  push_cast
  omega

theorem wrapInt_mod_cycle (n : Nat) : wrapInt ((n % intCycle : Nat) : Int) = wrapInt (n : Int) := by
  unfold wrapInt intCycle
  push_cast
  omega

theorem wrapInt_range (x : Int) : -2147483648 ≤ wrapInt x ∧ wrapInt x < 2147483648 := by
  unfold wrapInt
  omega

/-- Every `int` is the value of the counter `i` at some attempt below `2 ^ 32`. -/
theorem exists_attempt_of_int (i : Int) (h1 : -2147483648 ≤ i) (h2 : i < 2147483648) :
    ∃ n : Nat, n < intCycle ∧ wrapInt (n : Int) = i := by
  refine ⟨(i % 4294967296).toNat, ?_, ?_⟩
  · unfold intCycle; omega
  · unfold wrapInt; omega

/-- While `index + i * i` does not exceed `INT_MAX` the compiled subscript is the
exact `(index + i * i) % size`. -/
theorem machineIndex_eq_probeIndex (size index i : Nat) (h : index + i * i < 2147483648) :
    machineIndex size (index : Int) (i : Int) = probeIndex size index i := by
  unfold machineIndex probeIndex
  have hq : (i : Int) * (i : Int) = ((i * i : Nat) : Int) := by push_cast; ring
  have hw1 : wrapInt ((i * i : Nat) : Int) = ((i * i : Nat) : Int) :=
    wrapInt_of_range _ (by omega) (by omega)
  have hw2 : wrapInt ((index : Int) + ((i * i : Nat) : Int))
      = ((index + i * i : Nat) : Int) := by
    rw [wrapInt_of_range _ (by omega) (by omega)]
    push_cast; ring
  have hs : toSizeT ((index + i * i : Nat) : Int) = index + i * i := by
    unfold toSizeT
    omega
  rw [hq, hw1, hw2, hs]

theorem machineIndex_lt {size : Nat} (h : 0 < size) (index i : Int) :
    machineIndex size index i < size := Nat.mod_lt _ h

/-! ## The compiled probe loops -/

section WrapFree
variable [Inhabited α]

theorem probeFreeWrap_some (tbl : List (Bucket α)) (index r : Int) :
    ∀ (fuel n : Nat), probeFreeWrap tbl index fuel (wrapInt (n : Int)) = some r →
      ∃ j, n ≤ j ∧ j < n + fuel ∧ r = wrapInt (j : Int) ∧
        (slot tbl (machineIndex tbl.length index (wrapInt (j : Int)))).occupied = false ∧
        ∀ m, n ≤ m → m < j →
          (slot tbl (machineIndex tbl.length index (wrapInt (m : Int)))).occupied = true := by
  intro fuel
  induction fuel with
  | zero => intro n h; simp [probeFreeWrap] at h
  | succ f ih =>
    intro n h
    unfold probeFreeWrap at h
    by_cases hocc : (slot tbl (machineIndex tbl.length index (wrapInt (n : Int)))).occupied = true
    · rw [if_pos hocc, wrapInt_succ] at h
      obtain ⟨j, hj, hlt, hr, hfree, hall⟩ := ih (n + 1) h
      refine ⟨j, by omega, by omega, hr, hfree, ?_⟩
      intro m h1 h2
      by_cases hmn : m = n
      · rw [hmn]; exact hocc
      · exact hall m (by omega) h2
    · rw [if_neg hocc] at h
      refine ⟨n, le_refl n, by omega, (Option.some.inj h).symm, by simpa using hocc, ?_⟩
      intro m h1 h2; omega

theorem probeFreeWrap_of_free (tbl : List (Bucket α)) (index : Int) (j : Nat)
    (hfree : (slot tbl (machineIndex tbl.length index (wrapInt (j : Int)))).occupied = false) :
    ∀ (fuel n : Nat), n ≤ j → j < n + fuel →
      ∃ r, probeFreeWrap tbl index fuel (wrapInt (n : Int)) = some r := by
  intro fuel
  induction fuel with
  | zero => intro n h1 h2; omega
  | succ f ih =>
    intro n h1 h2
    unfold probeFreeWrap
    by_cases hocc : (slot tbl (machineIndex tbl.length index (wrapInt (n : Int)))).occupied = true
    · rw [if_pos hocc, wrapInt_succ]
      have hne : n ≠ j := by
        intro h; rw [h, hfree] at hocc; cases hocc
      exact ih (n + 1) (by omega) (by omega)
    · rw [if_neg hocc]
      exact ⟨_, rfl⟩

/-- The compiled free-slot loop stops at the first attempt that meets a
non-occupied slot. -/
theorem probeFreeWrap_first (tbl : List (Bucket α)) (index : Int) (j : Nat)
    (hfree : (slot tbl (machineIndex tbl.length index (wrapInt (j : Int)))).occupied = false) :
    ∀ (fuel n : Nat), n ≤ j → j < n + fuel →
      (∀ m, n ≤ m → m < j →
        (slot tbl (machineIndex tbl.length index (wrapInt (m : Int)))).occupied = true) →
      probeFreeWrap tbl index fuel (wrapInt (n : Int)) = some (wrapInt (j : Int)) := by
  intro fuel
  induction fuel with
  | zero => intro n h1 h2; omega
  | succ f ih =>
    intro n h1 h2 hall
    unfold probeFreeWrap
    by_cases hnj : n = j
    · rw [hnj, if_neg (by rw [hfree]; simp)]
    · rw [if_pos (hall n (le_refl n) (by omega)), wrapInt_succ]
      exact ih (n + 1) (by omega) (by omega) (fun m hm1 hm2 => hall m (by omega) hm2)

theorem probeFreeWrap_none (tbl : List (Bucket α)) (index : Int) :
    ∀ (fuel n : Nat), probeFreeWrap tbl index fuel (wrapInt (n : Int)) = none →
      ∀ m, n ≤ m → m < n + fuel →
        (slot tbl (machineIndex tbl.length index (wrapInt (m : Int)))).occupied = true := by
  intro fuel
  induction fuel with
  | zero => intro n _ m h1 h2; omega
  | succ f ih =>
    intro n h m h1 h2
    unfold probeFreeWrap at h
    by_cases hocc : (slot tbl (machineIndex tbl.length index (wrapInt (n : Int)))).occupied = true
    · rw [if_pos hocc, wrapInt_succ] at h
      by_cases hmn : m = n
      · rw [hmn]; exact hocc
      · exact ih (n + 1) h m (by omega) (by omega)
    · rw [if_neg hocc] at h; cases h

/-- Adequacy of the attempt bound `2 ^ 32`: when the compiled free-slot loop has
not stopped by then, it meets an occupied slot at every value of `i`. -/
theorem probeFreeWrap_none_forever (tbl : List (Bucket α)) (index : Int)
    (h : probeFreeWrap tbl index intCycle 0 = none) (i : Int) :
    (slot tbl (machineIndex tbl.length index (wrapInt i))).occupied = true := by
  obtain ⟨n, hn, hni⟩ := exists_attempt_of_int (wrapInt i) (wrapInt_range i).1 (wrapInt_range i).2
  have h0 : probeFreeWrap tbl index intCycle (wrapInt ((0 : Nat) : Int)) = none := h
  have := probeFreeWrap_none tbl index intCycle 0 h0 n (Nat.zero_le n) (by omega)
  rw [hni] at this
  exact this

/-- The compiled free-slot loop never stops on a table without a non-occupied
slot, whatever the subscripts are. -/
theorem probeFreeWrap_full (tbl : List (Bucket α)) (index : Int) (hpos : 0 < tbl.length)
    (hfull : ∀ k, k < tbl.length → (slot tbl k).occupied = true) :
    ∀ (fuel : Nat) (i : Int), probeFreeWrap tbl index fuel i = none := by
  intro fuel
  induction fuel with
  | zero => intro i; rfl
  | succ f ih =>
    intro i
    unfold probeFreeWrap
    rw [if_pos (hfull _ (machineIndex_lt hpos _ _))]
    exact ih _

theorem probeFree_full (tbl : List (Bucket α)) (index : Nat) (hpos : 0 < tbl.length)
    (hfull : ∀ k, k < tbl.length → (slot tbl k).occupied = true) :
    ∀ (fuel i : Nat), probeFree tbl index fuel i = none := by
  intro fuel
  induction fuel with
  | zero => intro i; rfl
  | succ f ih =>
    intro i
    unfold probeFree
    rw [if_pos (hfull _ (probeIndex_lt hpos _ _))]
    exact ih _

end WrapFree

section WrapMatch
variable [Inhabited α] [DecidableEq α]

/-- The compiled loop of `indexOf` returns `-1` at the first attempt that meets a
non-occupied slot, when no earlier attempt meets a live match. -/
theorem indexOfLoopWrap_absent_at (tbl : List (Bucket α)) (index : Int) (v : α) (j : Nat)
    (hfree : (slot tbl (machineIndex tbl.length index (wrapInt (j : Int)))).occupied = false) :
    ∀ (fuel n : Nat), n ≤ j → j < n + fuel →
      (∀ m, n ≤ m → m < j →
        (slot tbl (machineIndex tbl.length index (wrapInt (m : Int)))).occupied = true ∧
        ¬ ((slot tbl (machineIndex tbl.length index (wrapInt (m : Int)))).value = v ∧
           ¬ (slot tbl (machineIndex tbl.length index (wrapInt (m : Int)))).deleted = true)) →
      indexOfLoopWrap tbl index v fuel (wrapInt (n : Int)) = some (-1) := by
  intro fuel
  induction fuel with
  | zero => intro n h1 h2; omega
  | succ f ih =>
    intro n h1 h2 hall
    unfold indexOfLoopWrap
    by_cases hnj : n = j
    · rw [hnj, if_neg (by rw [hfree]; simp)]
    · obtain ⟨ho, hm⟩ := hall n (le_refl n) (by omega)
      rw [if_pos ho, if_neg hm, wrapInt_succ]
      exact ih (n + 1) (by omega) (by omega) (fun m hm1 hm2 => hall m (by omega) hm2)

/-- The compiled loop of `indexOf` returns the subscript of the first attempt
that meets a live match, when every earlier attempt meets an occupied slot. -/
theorem indexOfLoopWrap_found_at (tbl : List (Bucket α)) (index : Int) (v : α) (j : Nat)
    (hocc : (slot tbl (machineIndex tbl.length index (wrapInt (j : Int)))).occupied = true)
    (hval : (slot tbl (machineIndex tbl.length index (wrapInt (j : Int)))).value = v)
    (hdel : (slot tbl (machineIndex tbl.length index (wrapInt (j : Int)))).deleted = false) :
    ∀ (fuel n : Nat), n ≤ j → j < n + fuel →
      (∀ m, n ≤ m → m < j →
        (slot tbl (machineIndex tbl.length index (wrapInt (m : Int)))).occupied = true ∧
        ¬ ((slot tbl (machineIndex tbl.length index (wrapInt (m : Int)))).value = v ∧
           ¬ (slot tbl (machineIndex tbl.length index (wrapInt (m : Int)))).deleted = true)) →
      indexOfLoopWrap tbl index v fuel (wrapInt (n : Int))
        = some (wrapInt (machineIndex tbl.length index (wrapInt (j : Int)) : Nat)) := by
  intro fuel
  induction fuel with
  | zero => intro n h1 h2; omega
  | succ f ih =>
    intro n h1 h2 hall
    unfold indexOfLoopWrap
    by_cases hnj : n = j
    · rw [hnj, if_pos hocc, if_pos ⟨hval, by rw [hdel]; simp⟩]
    · obtain ⟨ho, hm⟩ := hall n (le_refl n) (by omega)
      rw [if_pos ho, if_neg hm, wrapInt_succ]
      exact ih (n + 1) (by omega) (by omega) (fun m hm1 hm2 => hall m (by omega) hm2)

theorem indexOfLoopWrap_none (tbl : List (Bucket α)) (index : Int) (v : α) :
    ∀ (fuel n : Nat), indexOfLoopWrap tbl index v fuel (wrapInt (n : Int)) = none →
      ∀ m, n ≤ m → m < n + fuel →
        (slot tbl (machineIndex tbl.length index (wrapInt (m : Int)))).occupied = true ∧
        ¬ ((slot tbl (machineIndex tbl.length index (wrapInt (m : Int)))).value = v ∧
           (slot tbl (machineIndex tbl.length index (wrapInt (m : Int)))).deleted = false) := by
  intro fuel
  induction fuel with
  | zero => intro n _ m h1 h2; omega
  | succ f ih =>
    intro n h m h1 h2
    unfold indexOfLoopWrap at h
    by_cases hocc : (slot tbl (machineIndex tbl.length index (wrapInt (n : Int)))).occupied = true
    · rw [if_pos hocc] at h
      by_cases hm : (slot tbl (machineIndex tbl.length index (wrapInt (n : Int)))).value = v ∧
          ¬ (slot tbl (machineIndex tbl.length index (wrapInt (n : Int)))).deleted = true
      · rw [if_pos hm] at h; cases h
      · rw [if_neg hm, wrapInt_succ] at h
        by_cases hmn : m = n
        · rw [hmn]; exact ⟨hocc, by simpa using hm⟩
        · exact ih (n + 1) h m (by omega) (by omega)
    · rw [if_neg hocc] at h; cases h

/-- Adequacy of the attempt bound `2 ^ 32` for the compiled loop of `indexOf`. -/
theorem indexOfLoopWrap_none_forever (tbl : List (Bucket α)) (index : Int) (v : α)
    (h : indexOfLoopWrap tbl index v intCycle 0 = none) (i : Int) :
    (slot tbl (machineIndex tbl.length index (wrapInt i))).occupied = true ∧
      ¬ ((slot tbl (machineIndex tbl.length index (wrapInt i))).value = v ∧
         (slot tbl (machineIndex tbl.length index (wrapInt i))).deleted = false) := by
  obtain ⟨n, hn, hni⟩ := exists_attempt_of_int (wrapInt i) (wrapInt_range i).1 (wrapInt_range i).2
  have h0 : indexOfLoopWrap tbl index v intCycle (wrapInt ((0 : Nat) : Int)) = none := h
  have := indexOfLoopWrap_none tbl index v intCycle 0 h0 n (Nat.zero_le n) (by omega)
  rw [hni] at this
  exact this

theorem removeLoopWrap_none (tbl : List (Bucket α)) (index : Int) (v : α) :
    ∀ (fuel n : Nat), removeLoopWrap tbl index v fuel (wrapInt (n : Int)) = none →
      ∀ m, n ≤ m → m < n + fuel →
        (slot tbl (machineIndex tbl.length index (wrapInt (m : Int)))).occupied = true ∧
        (slot tbl (machineIndex tbl.length index (wrapInt (m : Int)))).value ≠ v := by
  intro fuel
  induction fuel with
  | zero => intro n _ m h1 h2; omega
  | succ f ih =>
    intro n h m h1 h2
    unfold removeLoopWrap at h
    by_cases hocc : (slot tbl (machineIndex tbl.length index (wrapInt (n : Int)))).occupied = true
    · rw [if_pos hocc] at h
      by_cases hm : (slot tbl (machineIndex tbl.length index (wrapInt (n : Int)))).value = v
      · rw [if_pos hm] at h; cases h
      · rw [if_neg hm, wrapInt_succ] at h
        by_cases hmn : m = n
        · rw [hmn]; exact ⟨hocc, hm⟩
        · exact ih (n + 1) h m (by omega) (by omega)
    · rw [if_neg hocc] at h; cases h

/-- Adequacy of the attempt bound `2 ^ 32` for the compiled loop of `remove`. -/
theorem removeLoopWrap_none_forever (tbl : List (Bucket α)) (index : Int) (v : α)
    (h : removeLoopWrap tbl index v intCycle 0 = none) (i : Int) :
    (slot tbl (machineIndex tbl.length index (wrapInt i))).occupied = true ∧
      (slot tbl (machineIndex tbl.length index (wrapInt i))).value ≠ v := by
  obtain ⟨n, hn, hni⟩ := exists_attempt_of_int (wrapInt i) (wrapInt_range i).1 (wrapInt_range i).2
  have h0 : removeLoopWrap tbl index v intCycle (wrapInt ((0 : Nat) : Int)) = none := h
  have := removeLoopWrap_none tbl index v intCycle 0 h0 n (Nat.zero_le n) (by omega)
  rw [hni] at this
  exact this

end WrapMatch

/-! ## Agreement of the two readings below the overflow -/

section Agreement
variable [Inhabited α]

theorem square_le_square {m i : Nat} (h : m ≤ i) : m * m ≤ i * i := Nat.mul_le_mul h h

theorem lt_cycle_of_square {i : Nat} (h : i * i < 2147483648) : i < 46341 := by
  by_contra hge
  have hge1 : 46341 ≤ i := Nat.le_of_not_lt hge
  have := square_le_square hge1
  omega

/-- The compiled free-slot loop stops where the exact one does, when the exact
one stops before `index + i * i` exceeds `INT_MAX`. -/
theorem probeFreeWrap_of_exact (tbl : List (Bucket α)) (index i fuel : Nat)
    (h : probeFree tbl index fuel 0 = some i) (hb : index + i * i < 2147483648) :
    probeFreeWrap tbl (index : Int) intCycle 0 = some (i : Int) := by
  obtain ⟨_, _, hfree, hall⟩ := probeFree_some tbl index i fuel 0 h
  have hi : i < 46341 := lt_cycle_of_square (by omega)
  have hw : ∀ m, m ≤ i → wrapInt (m : Int) = (m : Int) := fun m hm =>
    wrapInt_of_range _ (by omega) (by omega)
  have hidx : ∀ m, m ≤ i →
      machineIndex tbl.length (index : Int) (wrapInt (m : Int)) = probeIndex tbl.length index m := by
    intro m hm
    rw [hw m hm]
    exact machineIndex_eq_probeIndex _ _ _ (by have := square_le_square hm; omega)
  have hfirst := probeFreeWrap_first tbl (index : Int) i
    (by rw [hidx i (le_refl i)]; exact hfree) intCycle 0 (Nat.zero_le _)
    (by unfold intCycle; omega)
    (fun m _ hm => by rw [hidx m (le_of_lt hm)]; exact hall m (Nat.zero_le m) hm)
  rw [hw i (le_refl i)] at hfirst
  exact hfirst

/-- The compiled placement does what the exact one does, when the exact one
stops before `index + i * i` exceeds `INT_MAX`. -/
theorem placeWrap_of_exact (tbl tbl1 : List (Bucket α)) (index : Nat) (v : α)
    (h : place tbl index v = some tbl1)
    (hb : ∀ i, probeFree tbl index tbl.length 0 = some i → index + i * i < 2147483648) :
    placeWrap tbl (index : Int) v = some tbl1 := by
  obtain ⟨i, hi, hw⟩ := place_eq_some tbl tbl1 index v h
  unfold placeWrap
  rw [probeFreeWrap_of_exact tbl index i tbl.length hi (hb i hi), Option.map_some',
    machineIndex_eq_probeIndex _ _ _ (hb i hi), hw]

end Agreement

/-! ## The nine colliding values and the attempt 65537 -/

/-- On a table of 17 slots and base index 0 the compiled subscript is
`i * i mod 17` as long as `i * i` is below `2 ^ 32`: where the product has
wrapped to a negative `int`, the conversion to `size_t` adds `2 ^ 64 - 2 ^ 32`,
a multiple of 17. -/
theorem machineIndex_seventeen (m : Nat) (h : m * m < 4294967296) :
    machineIndex 17 0 (m : Int) = m * m % 17 := by
  unfold machineIndex
  have hq : (m : Int) * (m : Int) = ((m * m : Nat) : Int) := by push_cast; ring
  rw [hq]
  have hgen : ∀ q : Nat, q < 4294967296 →
      toSizeT (wrapInt (0 + wrapInt (q : Int))) % 17 = q % 17 := by
    intro q hq1
    by_cases hsmall : q < 2147483648
    · have h1 : wrapInt (q : Int) = (q : Int) := wrapInt_of_range _ (by omega) (by omega)
      have h2 : wrapInt (0 + (q : Int)) = (q : Int) := by rw [zero_add]; exact h1
      have h3 : toSizeT (q : Int) = q := by unfold toSizeT; omega
      rw [h1, h2, h3]
    · have h1 : wrapInt (q : Int) = (q : Int) - 4294967296 := by unfold wrapInt; omega
      have h2 : wrapInt (0 + ((q : Int) - 4294967296)) = (q : Int) - 4294967296 := by
        rw [zero_add]; exact wrapInt_of_range _ (by omega) (by omega)
      have h3 : toSizeT ((q : Int) - 4294967296) = q + 18446744069414584320 := by
        unfold toSizeT; omega
      rw [h1, h2, h3]
      omega
  exact hgen (m * m) h

/-- A property of the slots `r * r mod 17` of a table of 17 slots holds at every
attempt below 65537 of the compiled loop from base index 0. -/
theorem attempts_below_65537 (tbl : List (Bucket Int)) (hlen : tbl.length = 17)
    (P : Bucket Int → Prop) (hres : ∀ r, r < 17 → P (slot tbl (r * r % 17))) :
    ∀ m : Nat, m < 65537 → P (slot tbl (machineIndex tbl.length 0 (wrapInt (m : Int)))) := by
  intro m hm
  rw [hlen, wrapInt_of_range _ (by omega) (by omega)]
  by_cases h : m < 65536
  · have hsq : m * m < 4294967296 := by
      have := square_le_square (Nat.le_of_lt_succ h)
      omega
    rw [machineIndex_seventeen m hsq, Nat.mul_mod]
    exact hres (m % 17) (Nat.mod_lt _ (by omega))
  · have hm1 : m = 65536 := by omega
    rw [hm1]
    have h0 : machineIndex 17 0 ((65536 : Nat) : Int) = 0 * 0 % 17 := by decide
    rw [h0]
    exact hres 0 (by omega)

/-- No attempt of the exact sequence from base index 0 visits slot 3 of a table of
17 slots. -/
theorem probeIndex_seventeen_ne_three (i : Nat) : probeIndex 17 0 i ≠ 3 := by
  rw [← probeIndex_mod]
  have hall : ∀ r, r < 17 → probeIndex 17 0 r ≠ 3 := by decide
  exact hall (i % 17) (Nat.mod_lt _ (by omega))

/-- Every attempt of the exact sequence for `153` meets an occupied slot of
`collidedTable`. -/
theorem collided_exact_occupied (i : Nat) :
    (slot collidedTable.table (probeIndex 17 0 i)).occupied = true := by
  have hnone : probeFree collidedTable.table 0 collidedTable.table.length 0 = none := by decide
  exact probeFree_none_forever collidedTable.table 0 (by decide) hnone i

/-- The compiled free-slot loop for `153` on `collidedTable` stops at attempt
65537. -/
theorem collided_probeFreeWrap :
    probeFreeWrap collidedTable.table 0 intCycle 0 = some 65537 := by
  have hres : ∀ r, r < 17 → (slot collidedTable.table (r * r % 17)).occupied = true := by
    decide
  have hfirst := probeFreeWrap_first collidedTable.table 0 65537 (by decide) intCycle 0
    (Nat.zero_le _) (by decide)
    (fun m _ hm => attempts_below_65537 collidedTable.table rfl
      (fun b => b.occupied = true) hres m hm)
  exact hfirst

/-- Member `insert(153)` as compiled, on `collidedTable`: it returns with `153` in
slot 3. -/
theorem collided_insertWrap : collidedTable.insertWrap 153 = some overflowedTable := by
  have hn : collidedTable.needsRehash = false := by decide
  have hh : collidedTable.hashWrap 153 0 = some 0 := by decide
  unfold Hashtable.insertWrap placeWrap
  rw [hn, if_neg (by decide), Option.some_bind, hh, Option.some_bind, collided_probeFreeWrap]
  decide

/-- Member `indexOf(153)` as compiled, on `collidedTable`: it returns `-1` at
attempt 65537. -/
theorem collided_indexOfWrap : collidedTable.indexOfWrap 153 = some (-1) := by
  have hh : collidedTable.hashWrap 153 0 = some 0 := by decide
  have hres : ∀ r, r < 17 →
      (slot collidedTable.table (r * r % 17)).occupied = true ∧
      ¬ ((slot collidedTable.table (r * r % 17)).value = 153 ∧
         ¬ (slot collidedTable.table (r * r % 17)).deleted = true) := by
    decide
  unfold Hashtable.indexOfWrap
  rw [hh, Option.some_bind]
  exact indexOfLoopWrap_absent_at collidedTable.table 0 153 65537 (by decide) intCycle 0
    (Nat.zero_le _) (by decide)
    (fun m _ hm => attempts_below_65537 collidedTable.table rfl
      (fun b => b.occupied = true ∧ ¬ (b.value = 153 ∧ ¬ b.deleted = true)) hres m hm)

/-- Member `indexOf(153)` as compiled, on `overflowedTable`: it returns 3. -/
theorem overflowed_indexOfWrap : overflowedTable.indexOfWrap 153 = some 3 := by
  have hh : overflowedTable.hashWrap 153 0 = some 0 := by decide
  have hres : ∀ r, r < 17 →
      (slot overflowedTable.table (r * r % 17)).occupied = true ∧
      ¬ ((slot overflowedTable.table (r * r % 17)).value = 153 ∧
         ¬ (slot overflowedTable.table (r * r % 17)).deleted = true) := by
    decide
  unfold Hashtable.indexOfWrap
  rw [hh, Option.some_bind]
  exact indexOfLoopWrap_found_at overflowedTable.table 0 153 65537 (by decide) (by decide)
    (by decide) intCycle 0 (Nat.zero_le _) (by decide)
    (fun m _ hm => attempts_below_65537 overflowedTable.table rfl
      (fun b => b.occupied = true ∧ ¬ (b.value = 153 ∧ ¬ b.deleted = true)) hres m hm)

/-! ## The compiled operations -/

theorem hashWrap_eq_some [BuiltinHash α] (t : Hashtable α) (v : α) (a index : Int)
    (h : t.hashWrap v a = some index) : 0 < t.table.length := by
  unfold Hashtable.hashWrap at h
  by_cases h0 : t.table.length = 0
  · rw [if_pos h0] at h; cases h
  · exact Nat.pos_of_ne_zero h0

/-- On a table of at most `2 ^ 31` slots the compiled `hash(value, 0)` is a slot
index. -/
theorem hashWrap_small [BuiltinHash α] (t : Hashtable α) (v : α) (h0 : 0 < t.table.length)
    (h1 : t.table.length ≤ 2147483648) :
    ∃ b : Nat, b < t.table.length ∧ t.hashWrap v 0 = some (b : Int) := by
  refine ⟨(builtin_hash v + toSizeT (wrapInt (0 * 0))) % 18446744073709551616
    % t.table.length, Nat.mod_lt _ h0, ?_⟩
  unfold Hashtable.hashWrap
  rw [if_neg (Nat.pos_iff_ne_zero.mp h0)]
  have hlt := Nat.mod_lt ((builtin_hash v + toSizeT (wrapInt (0 * 0))) % 18446744073709551616) h0
  rw [wrapInt_of_range _ (by omega) (by omega)]

section WrapPlace
variable [Inhabited α]

theorem placeWrap_eq_some (tbl tbl1 : List (Bucket α)) (index : Int) (v : α)
    (h : placeWrap tbl index v = some tbl1) :
    ∃ i, probeFreeWrap tbl index intCycle 0 = some i ∧
      tbl1 = writeSlot tbl (machineIndex tbl.length index i) v := by
  unfold placeWrap at h
  obtain ⟨i, hi, hw⟩ := Option.map_eq_some'.mp h
  exact ⟨i, hi, hw.symm⟩

/-- The exact free-slot loop stops within `(p + 1) / 2` attempts in a table of
prime size `p` that is at most half occupied. -/
theorem probeFree_bound_of_room (tbl : List (Bucket α)) (index i : Nat)
    (hp : Nat.Prime tbl.length) (hroom : 2 * occupiedSlots tbl ≤ tbl.length)
    (h : probeFree tbl index tbl.length 0 = some i) : i ≤ (tbl.length + 1) / 2 := by
  obtain ⟨_, hlt, _, hall⟩ := probeFree_some tbl index i _ _ h
  rcases Nat.Prime.eq_two_or_odd hp with h2 | hodd
  · omega
  · obtain ⟨j, hj, hjfree⟩ := exists_free_attempt tbl index hp (by omega)
    by_contra hgt
    have := hall j (Nat.zero_le j) (by omega)
    rw [hjfree] at this
    cases this

/-- The compiled placement returns, with the result of the exact one, in a table
of prime size up to 80000 that is at most half occupied. -/
theorem placeWrap_of_room (tbl : List (Bucket α)) (b : Nat) (v : α)
    (hp : Nat.Prime tbl.length) (hroom : 2 * occupiedSlots tbl ≤ tbl.length)
    (hlen : tbl.length ≤ 80000) (hb : b < 80000) :
    ∃ tbl1, placeWrap tbl (b : Int) v = some tbl1 ∧ place tbl b v = some tbl1 := by
  obtain ⟨tbl1, h1⟩ := place_of_room tbl b v hp hroom
  refine ⟨tbl1, placeWrap_of_exact tbl tbl1 b v h1 ?_, h1⟩
  intro i hi
  have hbound := probeFree_bound_of_room tbl b i hp hroom hi
  have hi1 : i ≤ 40000 := by omega
  have := square_le_square hi1
  omega

/-- While `index + i * i` does not exceed `INT_MAX` the compiled subscript of
`rehash` is the exact `(index + i * i) % size`. -/
theorem rehashIndex_eq_probeIndex (size index i : Nat) (h : index + i * i < 2147483648) :
    rehashIndex (size : Int) (index : Int) (i : Int) = ((probeIndex size index i : Nat) : Int) := by
  unfold rehashIndex probeIndex
  have hq : (i : Int) * (i : Int) = ((i * i : Nat) : Int) := by push_cast; ring
  have hw1 : wrapInt ((i * i : Nat) : Int) = ((i * i : Nat) : Int) :=
    wrapInt_of_range _ (by omega) (by omega)
  have hw2 : wrapInt ((index : Int) + ((i * i : Nat) : Int))
      = ((index + i * i : Nat) : Int) := by
    rw [wrapInt_of_range _ (by omega) (by omega)]
    push_cast; ring
  rw [hq, hw1, hw2, Int.tmod_eq_emod (Int.ofNat_nonneg _) (Int.ofNat_nonneg _)]
  exact (Int.natCast_mod _ _).symm

/-- The compiled free-slot loop of `rehash` stops at the first attempt that meets
a non-occupied slot, when the subscripts up to there are not negative. -/
theorem probeFreeRehash_first (tbl : List (Bucket α)) (newCapacity index : Int) (j : Nat)
    (hfree : (slot tbl (rehashIndex newCapacity index (wrapInt (j : Int))).toNat).occupied
      = false) :
    ∀ (fuel n : Nat), n ≤ j → j < n + fuel →
      (∀ m, n ≤ m → m ≤ j → 0 ≤ rehashIndex newCapacity index (wrapInt (m : Int))) →
      (∀ m, n ≤ m → m < j →
        (slot tbl (rehashIndex newCapacity index (wrapInt (m : Int))).toNat).occupied = true) →
      probeFreeRehash tbl newCapacity index fuel (wrapInt (n : Int))
        = some (wrapInt (j : Int)) := by
  intro fuel
  induction fuel with
  | zero => intro n h1 h2; omega
  | succ f ih =>
    intro n h1 h2 hnn hall
    unfold probeFreeRehash
    rw [if_neg (not_lt.mpr (hnn n (le_refl n) h1))]
    by_cases hnj : n = j
    · rw [hnj, if_neg (by rw [hfree]; simp)]
    · rw [if_pos (hall n (le_refl n) (by omega)), wrapInt_succ]
      exact ih (n + 1) (by omega) (by omega) (fun m hm1 hm2 => hnn m (by omega) hm2)
        (fun m hm1 hm2 => hall m (by omega) hm2)

/-- The compiled placement of `rehash` does what the exact one does, when the
exact one stops before `index + i * i` exceeds `INT_MAX`. -/
theorem placeRehash_of_exact (tbl tbl1 : List (Bucket α)) (index : Nat) (v : α)
    (h : place tbl index v = some tbl1)
    (hb : ∀ i, probeFree tbl index tbl.length 0 = some i → index + i * i < 2147483648) :
    placeRehash tbl (tbl.length : Int) (index : Int) v = some tbl1 := by
  obtain ⟨i, hi, hw⟩ := place_eq_some tbl tbl1 index v h
  obtain ⟨_, _, hfree, hall⟩ := probeFree_some tbl index i _ 0 hi
  have hbi := hb i hi
  have hi1 : i < 46341 := lt_cycle_of_square (by omega)
  have hwr : ∀ m, m ≤ i → wrapInt (m : Int) = (m : Int) := fun m hm =>
    wrapInt_of_range _ (by omega) (by omega)
  have hidx : ∀ m, m ≤ i →
      rehashIndex (tbl.length : Int) (index : Int) (wrapInt (m : Int))
        = ((probeIndex tbl.length index m : Nat) : Int) := by
    intro m hm
    rw [hwr m hm]
    exact rehashIndex_eq_probeIndex _ _ _ (by have := square_le_square hm; omega)
  have hfirst := probeFreeRehash_first tbl (tbl.length : Int) (index : Int) i
    (by rw [hidx i (le_refl i), Int.toNat_ofNat]; exact hfree) intCycle 0 (Nat.zero_le _)
    (by unfold intCycle; omega)
    (fun m _ hm => by rw [hidx m hm]; exact Int.ofNat_nonneg _)
    (fun m _ hm => by
      rw [hidx m (le_of_lt hm), Int.toNat_ofNat]; exact hall m (Nat.zero_le m) hm)
  have hfirst0 : probeFreeRehash tbl (tbl.length : Int) (index : Int) intCycle 0
      = some (wrapInt (i : Int)) := hfirst
  unfold placeRehash
  rw [hfirst0, Option.map_some', hidx i (le_refl i), Int.toNat_ofNat, hw]

/-- The compiled placement of `rehash` returns, with the result of the exact one,
in a table of prime size up to 80000 that is at most half occupied. -/
theorem placeRehash_of_room (tbl : List (Bucket α)) (b : Nat) (v : α)
    (hp : Nat.Prime tbl.length) (hroom : 2 * occupiedSlots tbl ≤ tbl.length)
    (hlen : tbl.length ≤ 80000) (hb : b < 80000) :
    ∃ tbl1, placeRehash tbl (tbl.length : Int) (b : Int) v = some tbl1 ∧
      place tbl b v = some tbl1 := by
  obtain ⟨tbl1, h1⟩ := place_of_room tbl b v hp hroom
  refine ⟨tbl1, placeRehash_of_exact tbl tbl1 b v h1 ?_, h1⟩
  intro i hi
  have hbound := probeFree_bound_of_room tbl b i hp hroom hi
  have hi1 : i ≤ 40000 := by omega
  have := square_le_square hi1
  omega

end WrapPlace

section WrapOps
variable [Inhabited α] [BuiltinHash α]

theorem insertWrap_eq_some (t t1 : Hashtable α) (v : α) (h : t.insertWrap v = some t1) :
    ∃ t2 index tbl, (if t.needsRehash = true then t.rehashWrap else some t) = some t2 ∧
      t2.hashWrap v 0 = some index ∧ placeWrap t2.table index v = some tbl ∧
      t1 = { t2 with table := tbl, count := t2.count + 1 } := by
  unfold Hashtable.insertWrap at h
  obtain ⟨t2, hg, h1⟩ := Option.bind_eq_some.mp h
  obtain ⟨index, hh, h2⟩ := Option.bind_eq_some.mp h1
  obtain ⟨tbl, hp, h3⟩ := Option.map_eq_some'.mp h2
  exact ⟨t2, index, tbl, hg, hh, hp, h3.symm⟩

/-- Member `insert(value)` as compiled, when no rehash is due, returns exactly
when some value of the `int` counter `i` gives the subscript of a non-occupied
slot. -/
theorem insertWrap_returns_iff (t : Hashtable α) (v : α) (hno : t.needsRehash = false) :
    (∃ t1, t.insertWrap v = some t1) ↔
      ∃ index i : Int, t.hashWrap v 0 = some index ∧ -2147483648 ≤ i ∧ i < 2147483648 ∧
        (slot t.table (machineIndex t.table.length index i)).occupied = false := by
  constructor
  · rintro ⟨t1, h⟩
    obtain ⟨t2, index, tbl, hg, hh, hp, _⟩ := insertWrap_eq_some t t1 v h
    rw [if_neg (by simp [hno])] at hg
    have h2 : t = t2 := Option.some.inj hg
    rw [← h2] at hh hp
    obtain ⟨r, hr, _⟩ := placeWrap_eq_some _ _ _ _ hp
    have hr0 : probeFreeWrap t.table index intCycle (wrapInt ((0 : Nat) : Int)) = some r := hr
    obtain ⟨j, _, _, hrj, hfree, _⟩ := probeFreeWrap_some t.table index r intCycle 0 hr0
    exact ⟨index, wrapInt (j : Int), hh, (wrapInt_range _).1, (wrapInt_range _).2, hfree⟩
  · rintro ⟨index, i, hh, h1, h2, hfree⟩
    obtain ⟨n, hn, hni⟩ := exists_attempt_of_int i h1 h2
    rw [← hni] at hfree
    obtain ⟨r, hr⟩ := probeFreeWrap_of_free t.table index n hfree intCycle 0 (Nat.zero_le _)
      (by omega)
    have hr0 : probeFreeWrap t.table index intCycle 0 = some r := hr
    refine ⟨{ t with table := writeSlot t.table (machineIndex t.table.length index r) v,
                     count := t.count + 1 }, ?_⟩
    unfold Hashtable.insertWrap placeWrap
    rw [if_neg (by simp [hno]), Option.some_bind, hh, Option.some_bind, hr0]
    rfl

end WrapOps

/-! ## The exact results are the compiled results on tables of up to 20000 slots -/

section AgreementOps
variable [Inhabited α] [DecidableEq α]

theorem indexOfLoopWrap_of_exact (tbl : List (Bucket α)) (index : Nat) (v : α) (k : Int) :
    ∀ (fuel n : Nat), indexOfLoop tbl index v fuel n = some k →
      index + (n + fuel) * (n + fuel) < 2147483648 →
      ∀ fw, fuel ≤ fw → indexOfLoopWrap tbl (index : Int) v fw (n : Int) = some k := by
  intro fuel
  induction fuel with
  | zero => intro n h; simp [indexOfLoop] at h
  | succ f ih =>
    intro n h hb fw hfw
    obtain ⟨fw1, rfl⟩ : ∃ fw1, fw = fw1 + 1 := ⟨fw - 1, by omega⟩
    have hsq : n * n ≤ (n + (f + 1)) * (n + (f + 1)) := square_le_square (by omega)
    have hsq1 : (n + 1) * (n + 1) ≤ (n + (f + 1)) * (n + (f + 1)) := square_le_square (by omega)
    have hidx : machineIndex tbl.length (index : Int) (n : Int) = probeIndex tbl.length index n :=
      machineIndex_eq_probeIndex _ _ _ (by omega)
    have hn1 : n + 1 < 46341 := lt_cycle_of_square (by omega)
    unfold indexOfLoop at h
    unfold indexOfLoopWrap
    rw [hidx]
    by_cases hocc : (slot tbl (probeIndex tbl.length index n)).occupied = true
    · rw [if_pos hocc] at h ⊢
      by_cases hm : (slot tbl (probeIndex tbl.length index n)).value = v ∧
          ¬ (slot tbl (probeIndex tbl.length index n)).deleted = true
      · rw [if_pos hm] at h ⊢
        have hle : probeIndex tbl.length index n ≤ index + n * n := Nat.mod_le _ _
        rw [wrapInt_of_range _ (by omega) (by omega)]
        exact h
      · rw [if_neg hm] at h ⊢
        have hw : wrapInt ((n : Int) + 1) = ((n + 1 : Nat) : Int) := by
          rw [wrapInt_of_range _ (by omega) (by omega)]; push_cast; ring
        rw [hw]
        exact ih (n + 1) h (by rw [show n + 1 + f = n + (f + 1) by omega]; exact hb) fw1
          (by omega)
    · rw [if_neg hocc] at h ⊢
      exact h

theorem removeLoopWrap_of_exact (tbl : List (Bucket α)) (index : Nat) (v : α)
    (r : Option Nat) :
    ∀ (fuel n : Nat), removeLoop tbl index v fuel n = some r →
      index + (n + fuel) * (n + fuel) < 2147483648 →
      ∀ fw, fuel ≤ fw → removeLoopWrap tbl (index : Int) v fw (n : Int) = some r := by
  intro fuel
  induction fuel with
  | zero => intro n h; simp [removeLoop] at h
  | succ f ih =>
    intro n h hb fw hfw
    obtain ⟨fw1, rfl⟩ : ∃ fw1, fw = fw1 + 1 := ⟨fw - 1, by omega⟩
    have hsq : n * n ≤ (n + (f + 1)) * (n + (f + 1)) := square_le_square (by omega)
    have hsq1 : (n + 1) * (n + 1) ≤ (n + (f + 1)) * (n + (f + 1)) := square_le_square (by omega)
    have hidx : machineIndex tbl.length (index : Int) (n : Int) = probeIndex tbl.length index n :=
      machineIndex_eq_probeIndex _ _ _ (by omega)
    have hn1 : n + 1 < 46341 := lt_cycle_of_square (by omega)
    unfold removeLoop at h
    unfold removeLoopWrap
    rw [hidx]
    by_cases hocc : (slot tbl (probeIndex tbl.length index n)).occupied = true
    · rw [if_pos hocc] at h ⊢
      by_cases hm : (slot tbl (probeIndex tbl.length index n)).value = v
      · rw [if_pos hm] at h ⊢
        exact h
      · rw [if_neg hm] at h ⊢
        have hw : wrapInt ((n : Int) + 1) = ((n + 1 : Nat) : Int) := by
          rw [wrapInt_of_range _ (by omega) (by omega)]; push_cast; ring
        rw [hw]
        exact ih (n + 1) h (by rw [show n + 1 + f = n + (f + 1) by omega]; exact hb) fw1
          (by omega)
    · rw [if_neg hocc] at h ⊢
      exact h

end AgreementOps

/-- The compiled `hash(value, 0)` is the exact one, for a hash value that is a
`size_t` and a table of at most `2 ^ 31` slots. -/
theorem hashWrap_of_exact [BuiltinHash α] (t : Hashtable α) (v : α) (index : Nat)
    (hh : builtin_hash v < 18446744073709551616) (hlen : t.table.length ≤ 2147483648)
    (h : t.hash v 0 = some index) : t.hashWrap v 0 = some (index : Int) := by
  obtain ⟨hpos, hidx⟩ := hash_eq_some t v 0 index h
  unfold Hashtable.hashWrap
  rw [if_neg (Nat.pos_iff_ne_zero.mp hpos)]
  have h0 : toSizeT (wrapInt (0 * 0)) = 0 := by decide
  have hlt := Nat.mod_lt (builtin_hash v) hpos
  rw [h0, Nat.add_zero, Nat.mod_eq_of_lt hh, wrapInt_of_range _ (by omega) (by omega), hidx]
  simp

section AgreementTables
variable [Inhabited α] [BuiltinHash α]

/-- The loop of `rehash` as compiled builds what the exact one builds, on a table
of at most 20000 slots, when the new table has prime size up to 80000 and room
for twice the entries still to be placed. -/
theorem rehashLoopWrap_of_exact (t : Hashtable α)
    (hh : ∀ x : α, builtin_hash x < 18446744073709551616) (hsmall : t.table.length ≤ 20000) :
    ∀ (entries newTable out : List (Bucket α)), rehashLoop t entries newTable = some out →
      Nat.Prime newTable.length → newTable.length ≤ 80000 →
      2 * (occupiedSlots newTable + entries.length) ≤ newTable.length →
      rehashLoopWrap t (newTable.length : Int) entries newTable = some out := by
  intro entries
  induction entries with
  | nil =>
    intro newTable out h _ _ _
    have h1 : newTable = out := by simpa [rehashLoop] using h
    rw [← h1]; rfl
  | cons entry rest ih =>
    intro newTable out h hp hlen hroom
    rw [List.length_cons] at hroom
    by_cases hlive : entry.occupied = true ∧ ¬ entry.deleted = true
    · obtain ⟨index, newTable1, hi, hpl, h2⟩ :=
        rehashLoop_cons_live t entry rest newTable out hlive h
      obtain ⟨hpos, hidx⟩ := hash_eq_some t entry.value 0 index hi
      have hlt : index < t.table.length := by rw [hidx]; exact Nat.mod_lt _ hpos
      obtain ⟨tbl1, hw, he⟩ := placeRehash_of_room newTable index entry.value hp (by omega) hlen
        (by omega)
      have heq : tbl1 = newTable1 := Option.some.inj (he.symm.trans hpl)
      obtain ⟨hl1, ho1, _, _⟩ := place_effect _ _ _ _ hpl
      rw [rehashLoopWrap, if_pos hlive,
        hashWrap_of_exact t entry.value index (hh _) (by omega) hi, Option.some_bind, hw,
        Option.some_bind, heq]
      have := ih newTable1 out h2 (by rw [hl1]; exact hp) (by rw [hl1]; exact hlen)
        (by rw [hl1, ho1]; omega)
      rw [hl1] at this
      exact this
    · rw [rehashLoop_cons_dead t entry rest newTable hlive] at h
      rw [rehashLoopWrap, if_neg hlive]
      exact ih newTable out h hp hlen (by omega)

/-- On a table of 1 to 20000 slots, with hash values that are `size_t`, each
result of the exact operations is the result of the compiled ones: the two
readings differ only where an `int` overflows. -/
theorem compiled_of_exact [DecidableEq α] (t : Hashtable α)
    (hh : ∀ x : α, builtin_hash x < 18446744073709551616) (hcap : 0 < t.table.length)
    (hsmall : t.table.length ≤ 20000) :
    (∀ t1, t.rehash = some t1 → t.rehashWrap = some t1) ∧
    (∀ v t1, t.insert v = some t1 → t.insertWrap v = some t1) ∧
    (∀ v t1, t.remove v = some t1 → t.removeWrap v = some t1) ∧
    (∀ v k, t.indexOf v = some k → t.indexOfWrap v = some k) := by
  have hre : ∀ t1, t.rehash = some t1 → t.rehashWrap = some t1 := by
    intro t1 h
    obtain ⟨newCapacity, newTable, hn, hl, ht1⟩ := rehash_eq_some t t1 h
    obtain ⟨p, hnp, hp, hle, hleast⟩ := nextPrime_double t.table.length
    obtain ⟨q, hq, hq1, hq2⟩ := Nat.exists_prime_lt_and_le_two_mul (2 * t.table.length)
      (by omega)
    have hp4 : p ≤ 80000 := by
      have := hleast q hq (le_of_lt hq1)
      omega
    have hpc : newCapacity = (p : Int) := Option.some.inj (hn.symm.trans hnp)
    rw [hpc, Int.toNat_ofNat] at hl
    have hlen : (List.replicate p (default : Bucket α)).length = p := List.length_replicate _ _
    have hw := rehashLoopWrap_of_exact t hh hsmall t.table (List.replicate p default) newTable hl
      (by rw [hlen]; exact hp) (by rw [hlen]; exact hp4)
      (by rw [hlen, occupiedSlots_replicate]; omega)
    rw [hlen] at hw
    unfold Hashtable.rehashWrap
    rw [wrapInt_double _ (by omega), hnp, Option.some_bind, Int.toNat_ofNat, hw, ht1]
    rfl
  refine ⟨hre, ?_, ?_, ?_⟩
  · intro v t1 h
    obtain ⟨t2, index, tbl, hg, hi, hpl, ht1⟩ := insert_eq_some t t1 v h
    unfold Hashtable.insertWrap
    by_cases hgrow : t.needsRehash = true
    · rw [if_pos hgrow] at hg
      obtain ⟨t3, p, hre3, hl3, hp, hle, hleast, _, hocc, _, _, _⟩ := rehash_total t hcap
      have h23 : t3 = t2 := Option.some.inj (hre3.symm.trans hg)
      rw [h23] at hl3 hocc
      obtain ⟨q, hq, hq1, hq2⟩ := Nat.exists_prime_lt_and_le_two_mul (2 * t.table.length)
        (by omega)
      have hp4 : p ≤ 80000 := by
        have := hleast q hq (le_of_lt hq1)
        omega
      have hlive := liveSlots_le_length t.table
      obtain ⟨hpos2, hidx⟩ := hash_eq_some t2 v 0 index hi
      have hlt : index < t2.table.length := by rw [hidx]; exact Nat.mod_lt _ hpos2
      obtain ⟨tbl1, hw, he⟩ := placeWrap_of_room t2.table index v (by rw [hl3]; exact hp)
        (by rw [hl3, hocc]; omega) (by rw [hl3]; exact hp4) (by omega)
      have heq : tbl1 = tbl := Option.some.inj (he.symm.trans hpl)
      rw [if_pos hgrow, hre t2 hg, Option.some_bind,
        hashWrap_of_exact t2 v index (hh v) (by omega) hi, Option.some_bind, hw, heq, ht1]
      rfl
    · rw [if_neg hgrow] at hg
      have h2 : t = t2 := Option.some.inj hg
      rw [← h2] at hi hpl ht1
      obtain ⟨hpos, hidx⟩ := hash_eq_some t v 0 index hi
      have hlt : index < t.table.length := by rw [hidx]; exact Nat.mod_lt _ hpos
      have hw := placeWrap_of_exact t.table tbl index v hpl (by
        intro i hi1
        obtain ⟨_, hilt, _, _⟩ := probeFree_some _ _ _ _ _ hi1
        have hi2 : i ≤ 20000 := by omega
        have := square_le_square hi2
        omega)
      rw [if_neg hgrow, Option.some_bind, hashWrap_of_exact t v index (hh v) (by omega) hi,
        Option.some_bind, hw, ht1]
      rfl
  · intro v t1 h
    unfold Hashtable.remove at h
    obtain ⟨index, hi, h1⟩ := Option.bind_eq_some.mp h
    obtain ⟨r, hl, h2⟩ := Option.map_eq_some'.mp h1
    obtain ⟨hpos, hidx⟩ := hash_eq_some t v 0 index hi
    have hlt : index < t.table.length := by rw [hidx]; exact Nat.mod_lt _ hpos
    have hsq : (0 + t.table.length) * (0 + t.table.length) ≤ 20000 * 20000 :=
      square_le_square (by omega)
    have hw := removeLoopWrap_of_exact t.table index v r t.table.length 0 hl (by omega) intCycle
      (by unfold intCycle; omega)
    unfold Hashtable.removeWrap
    rw [hashWrap_of_exact t v index (hh v) (by omega) hi, Option.some_bind]
    have hw0 : removeLoopWrap t.table (index : Int) v intCycle 0 = some r := hw
    rw [hw0, Option.map_some', h2]
  · intro v k h
    unfold Hashtable.indexOf at h
    obtain ⟨index, hi, h1⟩ := Option.bind_eq_some.mp h
    obtain ⟨hpos, hidx⟩ := hash_eq_some t v 0 index hi
    have hlt : index < t.table.length := by rw [hidx]; exact Nat.mod_lt _ hpos
    have hsq : (0 + t.table.length) * (0 + t.table.length) ≤ 20000 * 20000 :=
      square_le_square (by omega)
    have hw := indexOfLoopWrap_of_exact t.table index v k t.table.length 0 h1 (by omega) intCycle
      (by unfold intCycle; omega)
    unfold Hashtable.indexOfWrap
    rw [hashWrap_of_exact t v index (hh v) (by omega) hi, Option.some_bind]
    exact hw

end AgreementTables

/-! ## The claims that meet the `int` overflow or a full table -/

theorem graveyard_reachable : Reachable graveyardTable :=
  reachable_runOps (insertRemoveRun 17) defaultTable graveyardTable
    (Reachable.new 17 LoadFactor.default065) (by decide)

theorem graveyard_full (k : Nat) (hk : k < graveyardTable.table.length) :
    (slot graveyardTable.table k).occupied = true := by
  have hall : ∀ k, k < 17 → (slot graveyardTable.table k).occupied = true := by decide
  exact hall k hk

/-- Member `insert(v)` does not return on `graveyardTable`, in either reading. -/
theorem graveyard_insert_none (v : Int) :
    graveyardTable.insertWrap v = none ∧ graveyardTable.insert v = none := by
  have hn : graveyardTable.needsRehash = false := by decide
  have hpos : 0 < graveyardTable.table.length := by decide
  constructor
  · unfold Hashtable.insertWrap placeWrap
    rw [hn, if_neg (by decide), Option.some_bind]
    cases graveyardTable.hashWrap v 0 with
    | none => rfl
    | some index =>
      rw [Option.some_bind, probeFreeWrap_full graveyardTable.table index hpos graveyard_full]
      rfl
  · unfold Hashtable.insert place
    rw [hn, if_neg (by decide), Option.some_bind]
    cases graveyardTable.hash v 0 with
    | none => rfl
    | some index =>
      rw [Option.some_bind, probeFree_full graveyardTable.table index hpos graveyard_full]
      rfl

/-- On a table of 17 slots the compiled subscript reaches every slot from every
base index: the attempts below 9 give the nine slots of the exact sequence, the
attempts from 65537 on, where `i * i` has wrapped, give the other eight. -/
theorem machineIndex_seventeen_onto :
    ∀ b : Fin 17, ∀ k : Fin 17,
      ∃ i ∈ ([0, 1, 2, 3, 4, 5, 6, 7, 8, 65537, 65540, 65542, 65543, 131073, 131077,
          196611, 196612] : List Int),
        machineIndex 17 ((b : Nat) : Int) i = (k : Nat) := by
  decide

/-- Member `insert(value)` as compiled returns on every table of 17 slots that
has a non-occupied slot, when no rehash is due. -/
theorem insertWrap_returns_seventeen [Inhabited α] [BuiltinHash α] (t : Hashtable α) (v : α)
    (hlen : t.table.length = 17) (hno : t.needsRehash = false) (k : Nat) (hk : k < 17)
    (hfree : (slot t.table k).occupied = false) :
    ∃ t1, t.insertWrap v = some t1 := by
  obtain ⟨b, hb, hh⟩ := hashWrap_small t v (by omega) (by omega)
  rw [hlen] at hb
  obtain ⟨i, hi, hidx⟩ := machineIndex_seventeen_onto ⟨b, hb⟩ ⟨k, hk⟩
  refine (insertWrap_returns_iff t v hno).mpr ⟨(b : Int), i, hh, ?_, ?_, ?_⟩
  · simp only [List.mem_cons, List.mem_singleton, List.not_mem_nil, or_false] at hi
    omega
  · simp only [List.mem_cons, List.mem_singleton, List.not_mem_nil, or_false] at hi
    omega
  · rw [hlen]
    have : machineIndex 17 (b : Int) i = k := hidx
    rw [this]
    exact hfree

/-- C8, evaluated on the code as compiled. On `collidedTable`, the default table
after inserting `0, 17, ..., 136`, every attempt of the sequence
`(builtin_hash(153) mod 17 + i*i) mod 17` meets an occupied slot, yet
`indexOf(153)` returns `-1`: it stops at attempt 65537, where `i * i` has
wrapped, on slot 3. After `insert(153)`, which writes there, `indexOf(153)`
returns 3, a slot that no attempt of the sequence visits. -/
theorem indexOf_off_sequence_after_overflow :
    insertAll defaultTable [0, 17, 34, 51, 68, 85, 102, 119, 136] = some collidedTable ∧
      (∀ i : Nat,
        (slot collidedTable.table
          (probeIndex collidedTable.getCapacity
            (builtin_hash (153 : Int) % collidedTable.getCapacity) i)).occupied = true) ∧
      collidedTable.indexOfWrap 153 = some (-1) ∧
      collidedTable.insertWrap 153 = some overflowedTable ∧
      overflowedTable.indexOfWrap 153 = some 3 ∧
      (∀ i : Nat,
        probeIndex overflowedTable.getCapacity
          (builtin_hash (153 : Int) % overflowedTable.getCapacity) i ≠ 3) :=
  ⟨by decide, collided_exact_occupied, collided_indexOfWrap, collided_insertWrap,
    overflowed_indexOfWrap, probeIndex_seventeen_ne_three⟩

/-- C13, evaluated on the code as compiled. On `collidedTable` no rehash is due
and `insert(153)` returns; it has written `153` into slot 3, which was not
occupied, while every attempt of the sequence
`(builtin_hash(153) mod 17 + i*i) mod 17` meets an occupied slot and none of
them visits slot 3. -/
theorem insert_off_sequence_after_overflow :
    1 ≤ collidedTable.getCapacity ∧ collidedTable.needsRehash = false ∧
      collidedTable.insertWrap 153 = some overflowedTable ∧
      (slot collidedTable.table 3).occupied = false ∧
      slot overflowedTable.table 3 = { value := 153, occupied := true, deleted := false } ∧
      (∀ k, k ≠ 3 → slot overflowedTable.table k = slot collidedTable.table k) ∧
      (∀ i : Nat,
        (slot collidedTable.table
          (probeIndex collidedTable.getCapacity
            (builtin_hash (153 : Int) % collidedTable.getCapacity) i)).occupied = true) ∧
      (∀ i : Nat,
        probeIndex collidedTable.getCapacity
          (builtin_hash (153 : Int) % collidedTable.getCapacity) i ≠ 3) :=
  ⟨by decide, by decide, collided_insertWrap, by decide, by decide,
    fun k hk => slot_writeSlot_ne collidedTable.table 3 k 153 hk,
    collided_exact_occupied, probeIndex_seventeen_ne_three⟩

/-- C14, evaluated on the code as compiled. On `collidedTable`, reached from the
default table by inserting `0, 17, ..., 136`, no rehash is due and every
attempt `i` of the sequence `(builtin_hash(153) mod 17 + i*i) mod 17` meets an
occupied slot, as the claim says; yet the probe loop of `insert(153)` stops, at
attempt 65537 where `i * i` has wrapped and the subscript is 3, and the call
returns with `153` in slot 3. On every table of 17 slots on which no rehash is
due, `insert(v)` returns as soon as one slot is not occupied. -/
theorem insert_returns_after_overflow :
    insertAll defaultTable [0, 17, 34, 51, 68, 85, 102, 119, 136] = some collidedTable ∧
      collidedTable.needsRehash = false ∧
      (∀ i : Nat,
        (slot collidedTable.table
          (probeIndex collidedTable.getCapacity
            (builtin_hash (153 : Int) % collidedTable.getCapacity) i)).occupied = true) ∧
      collidedTable.hashWrap 153 0 = some 0 ∧
      probeFreeWrap collidedTable.table 0 intCycle 0 = some 65537 ∧
      machineIndex collidedTable.getCapacity 0 65537 = 3 ∧
      collidedTable.insertWrap 153 = some overflowedTable ∧
      ∀ (t : Hashtable Int) (v : Int), t.getCapacity = 17 → t.needsRehash = false →
        (∃ k, k < 17 ∧ (slot t.table k).occupied = false) →
        ∃ t1, t.insertWrap v = some t1 :=
  ⟨by decide, by decide, collided_exact_occupied, by decide, collided_probeFreeWrap,
    by decide, collided_insertWrap,
    fun t v hlen hno ⟨k, hk, hfree⟩ => insertWrap_returns_seventeen t v hlen hno k hk hfree⟩

/-- Unbounded probing on the code as compiled. (1) After `insert(k); remove(k)`
for `k = 0, ..., 16` on the default table every slot is occupied and no rehash
is due, so `insert(v)` does not return, for any `v` and in either reading of
the arithmetic. (2) After inserting `0, 17, ..., 136`, `insert(153)` reaches
no stopping slot at any attempt `i < 46341`, the attempts at which `i * i`
fits an `int` and the compiled subscript is the one of the sequence
`(builtin_hash(153) mod 17 + i*i) mod 17`. -/
theorem probing_without_stop :
    (runOps defaultTable (insertRemoveRun 17) = some graveyardTable ∧
      Reachable graveyardTable ∧ graveyardTable.needsRehash = false ∧
      (∀ k, k < graveyardTable.getCapacity → (slot graveyardTable.table k).occupied = true) ∧
      ∀ v : Int, graveyardTable.insertWrap v = none ∧ graveyardTable.insert v = none) ∧
    (insertAll defaultTable [0, 17, 34, 51, 68, 85, 102, 119, 136] = some collidedTable ∧
      Reachable collidedTable ∧ collidedTable.needsRehash = false ∧
      (∀ i : Nat,
        (slot collidedTable.table
          (probeIndex collidedTable.getCapacity
            (builtin_hash (153 : Int) % collidedTable.getCapacity) i)).occupied = true) ∧
      collidedTable.hashWrap 153 0
        = some ((builtin_hash (153 : Int) % collidedTable.getCapacity : Nat) : Int) ∧
      ∀ i : Nat, i < 46341 →
        machineIndex collidedTable.getCapacity
            ((builtin_hash (153 : Int) % collidedTable.getCapacity : Nat) : Int) (i : Int)
          = probeIndex collidedTable.getCapacity
              (builtin_hash (153 : Int) % collidedTable.getCapacity) i ∧
        (slot collidedTable.table
          (machineIndex collidedTable.getCapacity
            ((builtin_hash (153 : Int) % collidedTable.getCapacity : Nat) : Int)
            (i : Int))).occupied = true) := by
  refine ⟨⟨by decide, graveyard_reachable, by decide, graveyard_full, graveyard_insert_none⟩,
    by decide, ?_, by decide, collided_exact_occupied, by decide, ?_⟩
  · exact reachable_insertAll [0, 17, 34, 51, 68, 85, 102, 119, 136] defaultTable collidedTable
      (Reachable.new 17 LoadFactor.default065) (by decide)
  · intro i hi
    have hbase : builtin_hash (153 : Int) % collidedTable.getCapacity = 0 := by decide
    have hcap : collidedTable.getCapacity = 17 := by decide
    have hsq := square_le_square (Nat.le_of_lt_succ hi)
    have hidx : machineIndex 17 ((0 : Nat) : Int) (i : Int) = probeIndex 17 0 i :=
      machineIndex_eq_probeIndex 17 0 i (by omega)
    rw [hbase, hcap, hidx]
    exact ⟨rfl, collided_exact_occupied i⟩

/-- The test of `insert` in `double` arithmetic at three inputs: with the
threshold `0.65` and 20 slots the product rounds to `13.0` and a count of 13
grows; with the threshold `0.07` and 100 slots the product rounds above `7` and
a count of 7 does not grow; `13 / 20` rounds to the value of
`LoadFactor.default065`. -/
theorem needsRehash_examples :
    geDoubleProduct 13 LoadFactor.default065 20 = true ∧
      geDoubleProduct 7
        ({ num := 1261007895663739, den := 18014398509481984, den_pos := by decide } :
          LoadFactor) 100 = false ∧
      roundDouble 7 100 = some (1261007895663739, 18014398509481984) ∧
      roundDouble 13 20 = some (5854679515581645, 9007199254740992) := by
  refine ⟨by decide, by decide, by decide, by decide⟩

end DynamicHashtable
